import Mathlib

set_option maxRecDepth 100000

/-!
# Verification of the MediaTagger metadata store

A shallow embedding of the pure core of `src/dataset_manager.py`:
the JSON sidecar metadata store (`load_metadata`, `save_metadata`,
`merge_with_video_list`), tag normalization (`normalize_tags`), the
preview-path function (`get_preview_path`, including a faithful MD5
implementation standing in for `hashlib.md5`), and the save handler
(`DatasetManagerApp._on_save`).

Modelling conventions:
* Python strings are Lean `String`s; character-level operations work on
  `String.data` (the list of characters).
* Python `dict`s are insertion-ordered association lists; `dictInsert`
  updates in place or appends, matching CPython semantics.
* `pathlib.Path` is modelled by `FsPath`: an absolute flag plus a list of
  components, with POSIX-flavoured parsing and printing.  `Path.resolve()`
  is modelled relative to an explicit current working directory `cwd`
  (symbolic links are not modelled).
* File-system reads are an oracle (`FileRead`) covering every outcome of
  the open/decode/parse pipeline, including a sidecar whose bytes are not
  valid UTF-8; a Python exception that escapes a function is an
  `Except.error`; `datetime.now()` is an explicit `PyDateTime` argument; an
  `Option String` oracle stands for an `OSError` raised during a save.
-/

/-! ## Python character and string primitives -/

/-- The whitespace characters matched by Python's `str.strip()` and by the
regex class `\s` (restricted to ASCII, which is all the repository uses). -/
def pyWs (c : Char) : Bool :=
  c = ' ' || c = '\t' || c = '\n' || c = '\x0d' || c = '\x0b' || c = '\x0c'

/-- The separator class of `re.split(r"[\s;,]+", ...)` in `normalize_tags`. -/
def isSepChar (c : Char) : Bool :=
  pyWs c || c = ';' || c = ','

/-- `str.strip()` on a character list: drop leading and trailing whitespace. -/
def stripChars (l : List Char) : List Char :=
  ((l.dropWhile pyWs).reverse.dropWhile pyWs).reverse

/-- `str.strip()` on strings. -/
def pyStrip (s : String) : String :=
  String.mk (stripChars s.data)

/-- Split a character list at every occurrence of `sep` (the splitting done
by `pathlib` on `"/"`); boundary and repeated separators yield empty pieces. -/
def charSplit (sep : Char) : List Char → List (List Char)
  | [] => [[]]
  | c :: cs =>
    match charSplit sep cs with
    | [] => [[c]]
    | t :: ts => if c = sep then [] :: t :: ts else (c :: t) :: ts

/-- Concatenate pieces with `sep` between them (`"/".join`-style, on lists). -/
def intercalateC (sep : List Char) : List (List Char) → List Char
  | [] => []
  | [t] => t
  | t :: ts => t ++ sep ++ intercalateC sep ts

/-- Worker for `reSplitSeps`.  The state is `some cur` while inside a token
(whose characters are accumulated reversed in `cur`) and `none` while inside
a maximal run of separator characters. -/
def splitGo : Option (List Char) → List Char → List (List Char)
  | some cur, [] => [cur.reverse]
  | none, [] => [[]]
  | some cur, c :: cs =>
    if isSepChar c then cur.reverse :: splitGo none cs
    else splitGo (some (c :: cur)) cs
  | none, c :: cs =>
    if isSepChar c then splitGo none cs
    else splitGo (some [c]) cs

/-- `re.split(r"[\s;,]+", s)`: split at maximal runs of whitespace, semicolon
or comma; a leading (trailing) run contributes a leading (trailing) empty
piece, exactly as `re.split` does. -/
def reSplitSeps (l : List Char) : List (List Char) :=
  splitGo (some []) l

/-! ## JSON values and Python dictionaries -/

/-- JSON values, as produced by `json.load` / consumed by `json.dump`. -/
inductive Json where
  | null
  | bool (b : Bool)
  | num (n : Int)
  | str (s : String)
  | arr (elems : List Json)
  | obj (fields : List (String × Json))

/-- Python truthiness of a JSON value (`bool(v)`), used by the `or ""`
pattern in `load_metadata`. -/
def jsonFalsy : Json → Bool
  | .null => true
  | .bool b => !b
  | .num n => n = 0
  | .str s => s = ""
  | .arr l => l.isEmpty
  | .obj l => l.isEmpty

/-- Whether a JSON value is an object (`isinstance(v, dict)`). -/
def jsonIsObj : Json → Bool
  | .obj _ => true
  | _ => false

/-- Dictionary lookup, `d.get(k)` / `d[k]`, on an insertion-ordered
association list. -/
def alistGet? {α : Type} (d : List (String × α)) (k : String) : Option α :=
  match d with
  | [] => none
  | (k', v) :: rest => if k' = k then some v else alistGet? rest k

/-- Dictionary assignment `d[k] = v`: update in place if the key is present
(keeping its position), otherwise append — CPython dict semantics. -/
def dictInsert {α : Type} (d : List (String × α)) (k : String) (v : α) :
    List (String × α) :=
  match d with
  | [] => [(k, v)]
  | (k', v') :: rest =>
    if k' = k then (k', v) :: rest else (k', v') :: dictInsert rest k v

/-- `d.setdefault(k, v)`: insert `v` at the end only if `k` is absent. -/
def dictSetdefault {α : Type} (d : List (String × α)) (k : String) (v : α) :
    List (String × α) :=
  match d with
  | [] => [(k, v)]
  | (k', v') :: rest =>
    if k' = k then (k', v') :: rest else (k', v') :: dictSetdefault rest k v

/-- `v.get(key, "") or ""` in `load_metadata`: a missing key or a falsy value
yields the empty string; any truthy value is kept verbatim. -/
def pyGetOrEmptyStr (fields : List (String × Json)) (key : String) : Json :=
  match alistGet? fields key with
  | none => Json.str ""
  | some v => if jsonFalsy v then Json.str "" else v

/-! ## File-system paths (`pathlib.Path`, POSIX flavour) -/

/-- A `pathlib` path: an absolute-or-relative flag plus the component list
(`Path.parts`, without the leading root entry). -/
structure FsPath where
  absolute : Bool
  components : List String
deriving DecidableEq

/-- `Path(s)`: split on `"/"`, dropping empty and `"."` components; a leading
slash makes the path absolute.  (`".."` components are kept, as `pathlib`
keeps them in pure paths.) -/
def parsePath (s : String) : FsPath :=
  match s.data with
  | [] => ⟨false, []⟩
  | c :: cs =>
    ⟨c = '/',
     ((charSplit '/' (c :: cs)).map String.mk).filter
       (fun t => t ≠ "" ∧ t ≠ ".")⟩

/-- `str(path)`: `"/"`-joined components; the empty relative path prints as
`"."` and the root prints as `"/"`, as in `pathlib`. -/
def pathToString (p : FsPath) : String :=
  if p.absolute then
    String.mk ('/' :: intercalateC ['/'] (p.components.map String.data))
  else if p.components.isEmpty then "."
  else String.mk (intercalateC ['/'] (p.components.map String.data))

/-- `p / q` (`PurePath.__truediv__`): an absolute right operand replaces the
left one. -/
def pathJoin (p q : FsPath) : FsPath :=
  if q.absolute then q else ⟨p.absolute, p.components ++ q.components⟩

/-- One step of `..`/`.` elimination: the stack of components built so far,
reversed. -/
def normDotsStep (acc : List String) (c : String) : List String :=
  if c = "." then acc
  else if c = ".." then acc.tail
  else c :: acc

/-- Eliminate `"."` and `".."` components the way `Path.resolve()` does on an
absolute path (a `".."` at the root stays at the root). -/
def normDots (cs : List String) : List String :=
  (cs.foldl normDotsStep []).reverse

/-- `path.resolve()` relative to the current working directory `cwd`
(assumed absolute): make the path absolute and eliminate dot components.
Symbolic links are not modelled. -/
def resolveIn (cwd p : FsPath) : FsPath :=
  ⟨true, normDots (if p.absolute then p.components else cwd.components ++ p.components)⟩

/-- Component-list prefix test used by `Path.relative_to`. -/
def startsList (pre l : List String) : Bool :=
  match pre, l with
  | [], _ => true
  | _ :: _, [] => false
  | a :: as', b :: bs => a = b && startsList as' bs

/-- `p.relative_to(base)`: the remaining components when `base` is a prefix
of `p`; `none` models the `ValueError` raised otherwise. -/
def relative_to (p base : FsPath) : Option FsPath :=
  if p.absolute = base.absolute ∧ startsList base.components p.components = true then
    some ⟨false, p.components.drop base.components.length⟩
  else none

/-- `path.name`: the final component, or `""` for the root and the empty
relative path. -/
def pathName (p : FsPath) : String :=
  (p.components.getLast?).getD ""

/-- A well-formed path component: what a component of an already-resolved
path looks like (nonempty, not a dot entry, no embedded slash). -/
def wfComp (c : String) : Prop :=
  c ≠ "" ∧ c ≠ "." ∧ c ≠ ".." ∧ '/' ∉ c.data

instance (c : String) : Decidable (wfComp c) := by
  unfold wfComp; infer_instance

/-- All components of a path are well-formed. -/
def wfComps (p : FsPath) : Prop :=
  ∀ c ∈ p.components, wfComp c

instance (p : FsPath) : Decidable (wfComps p) := by
  unfold wfComps; infer_instance

/-- A key string of the in-memory metadata mapping: the string form of a
resolved absolute path.  Stated via a parse round-trip so that it is
decidable. -/
def resolvedKeyStr (k : String) : Prop :=
  (parsePath k).absolute = true ∧ wfComps (parsePath k) ∧
    pathToString (parsePath k) = k

instance (k : String) : Decidable (resolvedKeyStr k) := by
  unfold resolvedKeyStr; infer_instance

/-! ## MD5 (`hashlib.md5`), over `Nat` with explicit mod-`2^32` arithmetic -/

/-- UTF-8 encoding of a single character (`str.encode("utf-8")`). -/
def utf8EncodeChar (c : Char) : List Nat :=
  let n := c.toNat
  if n < 128 then [n]
  else if n < 2048 then [192 + n / 64, 128 + n % 64]
  else if n < 65536 then [224 + n / 4096, 128 + n / 64 % 64, 128 + n % 64]
  else [240 + n / 262144, 128 + n / 4096 % 64, 128 + n / 64 % 64, 128 + n % 64]

/-- `s.encode("utf-8")` as a list of byte values. -/
def utf8Encode (s : String) : List Nat :=
  s.data.foldr (fun c acc => utf8EncodeChar c ++ acc) []

/-- The MD5 sine-derived round constants `K[0..63]`. -/
def md5K : List Nat := [
  0xd76aa478, 0xe8c7b756, 0x242070db, 0xc1bdceee,
  0xf57c0faf, 0x4787c62a, 0xa8304613, 0xfd469501,
  0x698098d8, 0x8b44f7af, 0xffff5bb1, 0x895cd7be,
  0x6b901122, 0xfd987193, 0xa679438e, 0x49b40821,
  0xf61e2562, 0xc040b340, 0x265e5a51, 0xe9b6c7aa,
  0xd62f105d, 0x02441453, 0xd8a1e681, 0xe7d3fbc8,
  0x21e1cde6, 0xc33707d6, 0xf4d50d87, 0x455a14ed,
  0xa9e3e905, 0xfcefa3f8, 0x676f02d9, 0x8d2a4c8a,
  0xfffa3942, 0x8771f681, 0x6d9d6122, 0xfde5380c,
  0xa4beea44, 0x4bdecfa9, 0xf6bb4b60, 0xbebfbc70,
  0x289b7ec6, 0xeaa127fa, 0xd4ef3085, 0x04881d05,
  0xd9d4d039, 0xe6db99e5, 0x1fa27cf8, 0xc4ac5665,
  0xf4292244, 0x432aff97, 0xab9423a7, 0xfc93a039,
  0x655b59c3, 0x8f0ccc92, 0xffeff47d, 0x85845dd1,
  0x6fa87e4f, 0xfe2ce6e0, 0xa3014314, 0x4e0811a1,
  0xf7537e82, 0xbd3af235, 0x2ad7d2bb, 0xeb86d391]

/-- The MD5 per-round left-rotation amounts `s[0..63]`. -/
def md5S : List Nat := [
  7, 12, 17, 22, 7, 12, 17, 22, 7, 12, 17, 22, 7, 12, 17, 22,
  5, 9, 14, 20, 5, 9, 14, 20, 5, 9, 14, 20, 5, 9, 14, 20,
  4, 11, 16, 23, 4, 11, 16, 23, 4, 11, 16, 23, 4, 11, 16, 23,
  6, 10, 15, 21, 6, 10, 15, 21, 6, 10, 15, 21, 6, 10, 15, 21]

/-- 32-bit left rotation. -/
def rotl32 (x n : Nat) : Nat :=
  (((x % 4294967296) <<< n) % 4294967296) ||| ((x % 4294967296) >>> (32 - n))

/-- 32-bit bitwise complement. -/
def not32 (x : Nat) : Nat := x ^^^ 4294967295

/-- The four 32-bit words of the MD5 state. -/
structure Md5State where
  a : Nat
  b : Nat
  c : Nat
  d : Nat

/-- One of the 64 MD5 operations on a 16-word message block `M`. -/
def md5Step (M : List Nat) (st : Md5State) (i : Nat) : Md5State :=
  let f :=
    if i < 16 then (st.b &&& st.c) ||| (not32 st.b &&& st.d)
    else if i < 32 then (st.d &&& st.b) ||| (not32 st.d &&& st.c)
    else if i < 48 then st.b ^^^ st.c ^^^ st.d
    else st.c ^^^ (st.b ||| not32 st.d)
  let g :=
    if i < 16 then i
    else if i < 32 then (5 * i + 1) % 16
    else if i < 48 then (3 * i + 5) % 16
    else (7 * i) % 16
  let x := (st.a + f + md5K.getD i 0 + M.getD g 0) % 4294967296
  ⟨st.d, (st.b + rotl32 x (md5S.getD i 0)) % 4294967296, st.b, st.c⟩

/-- Process one 16-word block: 64 operations, then add into the state. -/
def md5ProcessBlock (st : Md5State) (M : List Nat) : Md5State :=
  let r := (List.range 64).foldl (md5Step M) st
  ⟨(st.a + r.a) % 4294967296, (st.b + r.b) % 4294967296,
   (st.c + r.c) % 4294967296, (st.d + r.d) % 4294967296⟩

/-- Little-endian grouping of bytes into 32-bit words. -/
def bytesToWordsLE : List Nat → List Nat
  | b0 :: b1 :: b2 :: b3 :: rest =>
    (b0 + 256 * b1 + 65536 * b2 + 16777216 * b3) :: bytesToWordsLE rest
  | _ => []

/-- Group a word list into 16-word blocks (fuelled to stay structural). -/
def toBlocksGo (fuel : Nat) (ws : List Nat) : List (List Nat) :=
  match fuel with
  | 0 => []
  | f + 1 =>
    match ws with
    | [] => []
    | _ :: _ => ws.take 16 :: toBlocksGo f (ws.drop 16)

/-- Group a word list into 16-word blocks. -/
def toBlocks (ws : List Nat) : List (List Nat) :=
  toBlocksGo ws.length ws

/-- MD5 padding: `0x80`, zeros to 56 mod 64, then the bit length as a
64-bit little-endian quantity. -/
def md5Pad (msg : List Nat) : List Nat :=
  let len := msg.length
  let padZeros := (119 - len % 64) % 64
  let bits := (8 * len) % 18446744073709551616
  msg ++ [128] ++ List.replicate padZeros 0 ++
    (List.range 8).map (fun i => (bits >>> (8 * i)) % 256)

/-- The MD5 initial state. -/
def md5Init : Md5State := ⟨0x67452301, 0xefcdab89, 0x98badcfe, 0x10325476⟩

/-- The four little-endian bytes of a 32-bit word. -/
def wordBytesLE (w : Nat) : List Nat :=
  [w % 256, w / 256 % 256, w / 65536 % 256, w / 16777216 % 256]

/-- The 16-byte MD5 digest of a byte string. -/
def md5Digest (msg : List Nat) : List Nat :=
  let st := (toBlocks (bytesToWordsLE (md5Pad msg))).foldl md5ProcessBlock md5Init
  wordBytesLE st.a ++ wordBytesLE st.b ++ wordBytesLE st.c ++ wordBytesLE st.d

/-- Lowercase hexadecimal digit characters. -/
def hexDigitChar (n : Nat) : Char :=
  "0123456789abcdef".data.getD n 'f'

/-- Two hex characters per byte, high nibble first. -/
def bytesToHexChars : List Nat → List Char
  | [] => []
  | b :: bs => hexDigitChar (b / 16 % 16) :: hexDigitChar (b % 16) :: bytesToHexChars bs

/-- `hashlib.md5(bytes).hexdigest()`. -/
def md5hex (msg : List Nat) : String :=
  String.mk (bytesToHexChars (md5Digest msg))

/-- Known-answer test: the MD5 of the empty byte string. -/
example : md5hex (utf8Encode "") = "d41d8cd98f00b204e9800998ecf8427e" := by rfl

/-- Known-answer test: the MD5 of `"abc"`. -/
example : md5hex (utf8Encode "abc") = "900150983cd24fb0d6963f7d28e17f72" := by rfl

/-- Known-answer test: a two-block (> 64 byte) input. -/
example : md5hex (utf8Encode "aaaaaaaaaaaaaaaaaaaaaaaaaaaaaaaaaaaaaaaaaaaaaaaaaaaaaaaaaaaaaaaaaaaaaa") =
    "0f5c6c4e740bfcc08c3c26ccb2673d46" := by rfl

/-! ## The metadata store (`dataset_manager.py`) -/

/-- `DATA_DIR_NAME` from the source. -/
def DATA_DIR_NAME : String := ".data"

/-- `METADATA_FILENAME` from the source. -/
def METADATA_FILENAME : String := "video_metadata.json"

/-- `HISTORY_DIR_NAME` from the source. -/
def HISTORY_DIR_NAME : String := "history"

/-- `PREVIEWS_DIR` from the source. -/
def PREVIEWS_DIR : String := "previews"

/-- `PREVIEW_EXT` from the source. -/
def PREVIEW_EXT : String := ".jpg"

/-- An in-memory metadata entry: a Python `dict` whose values came from JSON
(in practice the string fields `tags` and `notes`). -/
abbrev Entry : Type := List (String × Json)

/-- The in-memory metadata mapping: absolute path string → entry, in
insertion order. -/
abbrev Meta : Type := List (String × Entry)

/-- A Python exception that escapes `load_metadata`.  `json.load` on a file
opened with `encoding="utf-8"` raises `UnicodeDecodeError` when the bytes
are not valid UTF-8; that class is neither `json.JSONDecodeError` nor
`OSError`, so the handler on line 47 does not catch it. -/
inductive PyError where
  | unicodeDecodeError

/-- Outcome of trying to read and parse the sidecar file: missing file,
`OSError` while opening or reading, bytes that are not valid UTF-8
(`UnicodeDecodeError` inside `json.load`), invalid JSON
(`json.JSONDecodeError`), or a parsed JSON value. -/
inductive FileRead where
  | absent
  | readError
  | undecodable
  | parseError
  | ok (j : Json)

/-- The in-memory key computed by `load_metadata` for a stored relative key:
`str((dataset_resolved / rel_key).resolve())` (line 55). -/
def loadKey (cwd dataset_resolved : FsPath) (rel_key : String) : String :=
  pathToString (resolveIn cwd (pathJoin dataset_resolved (parsePath rel_key)))

/-- The entry built by `load_metadata` from a stored JSON object (line 56). -/
def loadEntry (vf : List (String × Json)) : Entry :=
  [("tags", pyGetOrEmptyStr vf "tags"), ("notes", pyGetOrEmptyStr vf "notes")]

/-- The entry-building loop of `load_metadata` (lines 53-56): skip values
that are not JSON objects, resolve the key against the dataset directory,
and keep the `tags`/`notes` fields with the `or ""` coercion. -/
def loadGo (cwd dataset_resolved : FsPath) :
    List (String × Json) → Meta → Meta
  | [], out => out
  | (rel_key, v) :: rest, out =>
    match v with
    | Json.obj vf =>
      loadGo cwd dataset_resolved rest
        (dictInsert out (loadKey cwd dataset_resolved rel_key) (loadEntry vf))
    | _ => loadGo cwd dataset_resolved rest out

/-- `load_metadata` applied to an already-parsed JSON value: a non-object
yields the empty mapping (line 49-50), an object is folded by `loadGo`. -/
def load_core (cwd dataset_dir : FsPath) (data : Json) : Meta :=
  match data with
  | Json.obj fields => loadGo cwd (resolveIn cwd dataset_dir) fields []
  | _ => []

/-- `load_metadata(dataset_dir)` (lines 40-57): a missing file, an `OSError`
or a JSON parse error all yield the empty mapping (the `except` on line 47
catches exactly `json.JSONDecodeError` and `OSError`); a sidecar whose
bytes are not valid UTF-8 makes `json.load` raise `UnicodeDecodeError`,
which that handler does not catch, so the exception propagates to the
caller; otherwise the parsed value is processed by `load_core`. -/
def load_metadata (cwd dataset_dir : FsPath) (file : FileRead) :
    Except PyError Meta :=
  match file with
  | .absent => .ok []
  | .readError => .ok []
  | .undecodable => .error PyError.unicodeDecodeError
  | .parseError => .ok []
  | .ok j => .ok (load_core cwd dataset_dir j)

/-- The on-disk key computed by `save_metadata` for an in-memory key
(lines 66-70): the dataset-relative path string, falling back to the key
verbatim when `relative_to` raises `ValueError`. -/
def saveKey (dataset_resolved : FsPath) (full_path_str : String) : String :=
  pathToString
    (match relative_to (parsePath full_path_str) dataset_resolved with
     | some rel => rel
     | none => parsePath full_path_str)

/-- The key-relativising loop of `save_metadata` (lines 64-71). -/
def saveOutGo (dataset_resolved : FsPath) : Meta → List (String × Entry) →
    List (String × Entry)
  | [], out => out
  | (full_path_str, value) :: rest, out =>
    saveOutGo dataset_resolved rest
      (dictInsert out (saveKey dataset_resolved full_path_str) value)

/-- The `out` dictionary written by `save_metadata`. -/
def save_out (cwd dataset_dir : FsPath) (data : Meta) : List (String × Entry) :=
  saveOutGo (resolveIn cwd dataset_dir) data []

/-- `pathlib.PurePath.suffix` of a file name (the final `"."`-extension,
empty when the only dot is the leading one). -/
def fileSuffix (s : String) : String :=
  let ext := s.data.reverse.takeWhile (fun c => c ≠ '.')
  if ext.length + 1 < s.data.length then String.mk ('.' :: ext.reverse) else ""

/-- `pathlib.PurePath.stem` of a file name. -/
def fileStem (s : String) : String :=
  String.mk (s.data.take (s.data.length - (fileSuffix s).data.length))

/-- A `datetime.datetime` value, to the second. -/
structure PyDateTime where
  year : Nat
  month : Nat
  day : Nat
  hour : Nat
  minute : Nat
  second : Nat

/-- Zero-pad to two digits (`%m`, `%d`, `%H`, `%M`, `%S`). -/
def fmt2 (n : Nat) : String :=
  (if n < 10 then "0" else "") ++ toString n

/-- Zero-pad to four digits (`%Y`). -/
def fmt4 (n : Nat) : String :=
  (if n < 10 then "000" else if n < 100 then "00" else if n < 1000 then "0" else "")
    ++ toString n

/-- `datetime.now().strftime("%Y%m%d_%H%M%S")`. -/
def strftimeTS (t : PyDateTime) : String :=
  fmt4 t.year ++ fmt2 t.month ++ fmt2 t.day ++ "_" ++
    fmt2 t.hour ++ fmt2 t.minute ++ fmt2 t.second

/-- What a successful `save_metadata` writes: the sidecar JSON, plus the
name and content of the history copy (`shutil.copy2` of the just-written
sidecar). -/
structure SaveOutputs where
  sidecarContent : Json
  historyName : String
  historyContent : Json

/-- `save_metadata(dataset_dir, data)` at time `now` (lines 60-79): dump the
relativised mapping as a JSON object, then copy it to
`history/<stem>_<timestamp><suffix>`. -/
def save_metadata (cwd dataset_dir : FsPath) (data : Meta) (now : PyDateTime) :
    SaveOutputs :=
  let content := Json.obj ((save_out cwd dataset_dir data).map
    (fun kv => (kv.1, Json.obj kv.2)))
  { sidecarContent := content
    historyName := fileStem METADATA_FILENAME ++ "_" ++ strftimeTS now ++
      fileSuffix METADATA_FILENAME
    historyContent := content }

/-- The history directory as a name → content mapping; each save drops its
copy there, overwriting any file of the same name. -/
def applyHistory (fs : List (String × Json)) (o : SaveOutputs) :
    List (String × Json) :=
  dictInsert fs o.historyName o.historyContent

/-- The fresh empty entry of `merge_with_video_list`. -/
def freshEntry : Entry := [("tags", Json.str ""), ("notes", Json.str "")]

/-- The loop of `merge_with_video_list` (lines 86-90): for each video, look
the resolved key up in the stored mapping (defaulting to a fresh entry) and
`setdefault` the two fields. -/
def mergeGo (cwd : FsPath) (metadata : Meta) : List FsPath → Meta → Meta
  | [], result => result
  | p :: rest, result =>
    mergeGo cwd metadata rest
      (dictInsert result (pathToString (resolveIn cwd p))
        (dictSetdefault
          (dictSetdefault
            ((alistGet? metadata (pathToString (resolveIn cwd p))).getD freshEntry)
            "tags" (Json.str ""))
          "notes" (Json.str "")))

/-- `merge_with_video_list(video_paths, metadata)` (lines 82-91). -/
def merge_with_video_list (cwd : FsPath) (video_paths : List FsPath)
    (metadata : Meta) : Meta :=
  mergeGo cwd metadata video_paths []

/-- `normalize_tags(raw)` (lines 101-105): empty or whitespace-only input
yields `""`; otherwise split the stripped input at separator runs, strip
each piece, drop empty pieces and rejoin with `"; "`. -/
def normalize_tags (raw : String) : String :=
  if raw = "" ∨ pyStrip raw = "" then ""
  else
    String.mk (intercalateC (';' :: ' ' :: [])
      (((reSplitSeps (pyStrip raw).data).map stripChars).filter (fun t => t ≠ [])))

/-- Modelled from the spec's words (section 4.1, "Tag normalization"), for
comparison with `normalize_tags`: split the raw input on maximal runs of
whitespace, comma or semicolon, trim each token, drop empty tokens, rejoin
with `"; "`. -/
def normalizeTagsSpec (raw : String) : String :=
  String.mk (intercalateC (';' :: ' ' :: [])
    (((reSplitSeps raw.data).map stripChars).filter (fun t => t ≠ [])))

/-- `get_preview_path(dataset_dir, video_path)` (lines 135-140): MD5 of the
dataset-relative path string (or of `video_path.name` when the video lies
outside the dataset root), under `<dataset>/.data/previews/`. -/
def get_preview_path (cwd dataset_dir video_path : FsPath) : FsPath :=
  pathJoin
    (pathJoin (pathJoin dataset_dir (parsePath DATA_DIR_NAME))
      (parsePath PREVIEWS_DIR))
    (parsePath
      (md5hex (utf8Encode
        (match relative_to (resolveIn cwd video_path) (resolveIn cwd dataset_dir) with
         | some rel => pathToString rel
         | none => pathName video_path)) ++ PREVIEW_EXT))

/-- `DatasetManagerApp._commit_inline` acting on the metadata mapping
(lines 441-458): strip the entry text; column 3 stores normalized tags,
any other column stores the stripped text as notes. -/
def commit_inline (metadata : Meta) (iid : String) (col : Nat) (raw : String) :
    Meta :=
  let val := pyStrip raw
  let md := dictSetdefault metadata iid freshEntry
  match alistGet? md iid with
  | none => md
  | some e =>
    if col = 3 then dictInsert md iid (dictInsert e "tags" (Json.str (normalize_tags val)))
    else dictInsert md iid (dictInsert e "notes" (Json.str val))

/-- The dictionary built by `EditDialog._ok` (line 186): normalized tags and
stripped notes. -/
def edit_dialog_ok (tags_input notes_input : String) : Entry :=
  [("tags", Json.str (normalize_tags tags_input)),
   ("notes", Json.str (pyStrip notes_input))]

/-- User-visible messages issued by `_on_save`. -/
inductive UiMsg where
  | showInfo (s : String)
  | showError (s : String)
  | statusSaved

/-- `DatasetManagerApp._on_save` (lines 480-502): no dataset directory shows
an info box; an `OSError` from `save_metadata` (oracle `ioError`) shows an
error box and aborts; otherwise the save outputs are produced and the status
is updated.  The first component of the result is the in-memory metadata
mapping afterwards. -/
def on_save (cwd : FsPath) (dataset_dir : Option FsPath) (metadata : Meta)
    (now : PyDateTime) (ioError : Option String) :
    Meta × Option SaveOutputs × UiMsg :=
  match dataset_dir with
  | none => (metadata, none, .showInfo "Please select a directory first.")
  | some dd =>
    match ioError with
    | some msg => (metadata, none, .showError ("Failed to save: " ++ msg))
    | none => (metadata, some (save_metadata cwd dd metadata now), .statusSaved)

/-- The tags invariant on one entry, decidably: if the entry holds a tags
string, that string is a fixed point of `normalize_tags`. -/
def entryTagsOk (e : Entry) : Bool :=
  match alistGet? e "tags" with
  | some (Json.str s) => normalize_tags s = s
  | _ => true

/-! ## Dictionary lemmas -/

theorem alistGet?_dictInsert {α : Type} (d : List (String × α)) (k k' : String)
    (v : α) :
    alistGet? (dictInsert d k v) k' = if k = k' then some v else alistGet? d k' := by
  induction d with
  | nil => by_cases h : k = k' <;> simp [dictInsert, alistGet?, h]
  | cons kv rest ih =>
    obtain ⟨k0, v0⟩ := kv
    by_cases h : k0 = k
    · subst h
      by_cases h' : k0 = k' <;> simp [dictInsert, alistGet?, h']
    · by_cases h' : k0 = k'
      · subst h'
        have hne : ¬ k = k0 := fun hh => h hh.symm
        simp [dictInsert, alistGet?, h, hne]
      · simp [dictInsert, alistGet?, h, h', ih]

theorem alistGet?_dictSetdefault {α : Type} (d : List (String × α))
    (k k' : String) (v : α) :
    alistGet? (dictSetdefault d k v) k' =
      if k = k' then some ((alistGet? d k).getD v) else alistGet? d k' := by
  induction d with
  | nil => by_cases h : k = k' <;> simp [dictSetdefault, alistGet?, h]
  | cons kv rest ih =>
    obtain ⟨k0, v0⟩ := kv
    by_cases h : k0 = k
    · subst h
      by_cases h' : k0 = k' <;> simp [dictSetdefault, alistGet?, h']
    · by_cases h' : k0 = k'
      · subst h'
        have hne : ¬ k = k0 := fun hh => h hh.symm
        simp [dictSetdefault, alistGet?, h, hne]
      · simp [dictSetdefault, alistGet?, h, h', ih]

theorem dictInsert_of_forall_ne {α : Type} (d : List (String × α)) (k : String)
    (v : α) (h : ∀ kv ∈ d, kv.1 ≠ k) : dictInsert d k v = d ++ [(k, v)] := by
  induction d with
  | nil => simp [dictInsert]
  | cons kv rest ih =>
    obtain ⟨k0, v0⟩ := kv
    have h0 : k0 ≠ k := h (k0, v0) (List.mem_cons_self _ _)
    simp only [dictInsert, if_neg h0, List.cons_append, List.cons.injEq, true_and]
    exact ih (fun kv hkv => h kv (List.mem_cons_of_mem _ hkv))

theorem alistGet?_append {α : Type} (d1 d2 : List (String × α)) (k : String) :
    alistGet? (d1 ++ d2) k = (alistGet? d1 k).or (alistGet? d2 k) := by
  induction d1 with
  | nil => simp [alistGet?]
  | cons kv rest ih =>
    obtain ⟨k0, v0⟩ := kv
    by_cases h : k0 = k <;> simp [alistGet?, h, ih]

theorem alistGet?_isSome_iff {α : Type} (d : List (String × α)) (k : String) :
    (alistGet? d k).isSome = true ↔ k ∈ d.map Prod.fst := by
  induction d with
  | nil => simp [alistGet?]
  | cons kv rest ih =>
    obtain ⟨k0, v0⟩ := kv
    by_cases h : k0 = k
    · subst h; simp [alistGet?]
    · simp only [alistGet?, if_neg h, List.map_cons, List.mem_cons]
      rw [ih]
      constructor
      · exact Or.inr
      · rintro (h1 | h1)
        · exact absurd h1.symm h
        · exact h1

theorem alistGet?_mem {α : Type} (d : List (String × α)) (k : String) (v : α)
    (h : alistGet? d k = some v) : (k, v) ∈ d := by
  induction d with
  | nil => simp [alistGet?] at h
  | cons kv rest ih =>
    obtain ⟨k0, v0⟩ := kv
    by_cases h0 : k0 = k
    · subst h0
      simp [alistGet?] at h
      simp [h]
    · simp [alistGet?, h0] at h
      exact List.mem_cons_of_mem _ (ih h)

theorem mem_dictInsert {α : Type} (d : List (String × α)) (k : String) (v : α)
    (kv : String × α) (h : kv ∈ dictInsert d k v) : kv ∈ d ∨ kv = (k, v) := by
  induction d with
  | nil => simp [dictInsert] at h; simp [h]
  | cons kv0 rest ih =>
    obtain ⟨k0, v0⟩ := kv0
    by_cases h0 : k0 = k
    · subst h0
      simp only [dictInsert, if_pos rfl] at h
      rcases List.mem_cons.mp h with h1 | h1
      · exact Or.inr (by simp [h1])
      · exact Or.inl (List.mem_cons_of_mem _ h1)
    · simp only [dictInsert, if_neg h0] at h
      rcases List.mem_cons.mp h with h1 | h1
      · exact Or.inl (by simp [h1])
      · rcases ih h1 with h2 | h2
        · exact Or.inl (List.mem_cons_of_mem _ h2)
        · exact Or.inr h2

theorem mem_dictSetdefault {α : Type} (d : List (String × α)) (k : String)
    (v : α) (kv : String × α) (h : kv ∈ dictSetdefault d k v) :
    kv ∈ d ∨ kv = (k, v) := by
  induction d with
  | nil => simp [dictSetdefault] at h; simp [h]
  | cons kv0 rest ih =>
    obtain ⟨k0, v0⟩ := kv0
    by_cases h0 : k0 = k
    · subst h0
      simp only [dictSetdefault, if_pos rfl] at h
      exact Or.inl h
    · simp only [dictSetdefault, if_neg h0] at h
      rcases List.mem_cons.mp h with h1 | h1
      · exact Or.inl (by simp [h1])
      · rcases ih h1 with h2 | h2
        · exact Or.inl (List.mem_cons_of_mem _ h2)
        · exact Or.inr h2

/-! ## Path lemmas -/

theorem charSplit_ne_nil (sep : Char) (l : List Char) : charSplit sep l ≠ [] := by
  cases l with
  | nil => simp [charSplit]
  | cons c cs =>
    rcases h : charSplit sep cs with _ | ⟨t, ts⟩ <;> simp only [charSplit, h]
    · simp
    · by_cases hc : c = sep <;> simp [hc]

theorem charSplit_of_not_mem (sep : Char) (l : List Char) (h : sep ∉ l) :
    charSplit sep l = [l] := by
  induction l with
  | nil => rfl
  | cons c cs ih =>
    have hc : c ≠ sep := fun hh => h (hh ▸ List.mem_cons_self _ _)
    have h' : sep ∉ cs := fun hh => h (List.mem_cons_of_mem _ hh)
    simp only [charSplit, ih h']
    simp [hc]

theorem charSplit_sep_cons (sep : Char) (r : List Char) :
    charSplit sep (sep :: r) = [] :: charSplit sep r := by
  rcases h : charSplit sep r with _ | ⟨t, ts⟩
  · exact absurd h (charSplit_ne_nil sep r)
  · simp [charSplit, h]

theorem charSplit_append_sep (sep : Char) (t r : List Char) (h : sep ∉ t) :
    charSplit sep (t ++ sep :: r) = t :: charSplit sep r := by
  induction t with
  | nil => simpa using charSplit_sep_cons sep r
  | cons c cs ih =>
    have hc : c ≠ sep := fun hh => h (hh ▸ List.mem_cons_self _ _)
    have h' : sep ∉ cs := fun hh => h (List.mem_cons_of_mem _ hh)
    have ht := ih h'
    simp only [List.cons_append, charSplit, List.append_eq]
    rw [ht]
    simp [hc]

theorem charSplit_intercalateC (sep : Char) :
    ∀ ls : List (List Char), ls ≠ [] → (∀ t ∈ ls, sep ∉ t) →
      charSplit sep (intercalateC [sep] ls) = ls := by
  intro ls
  induction ls with
  | nil => intro hne; exact absurd rfl hne
  | cons t ts ih =>
    intro _ h
    cases ts with
    | nil => exact charSplit_of_not_mem sep t (h t (by simp))
    | cons t2 ts2 =>
      have hstep : intercalateC [sep] (t :: t2 :: ts2) =
          t ++ sep :: intercalateC [sep] (t2 :: ts2) := by
        simp [intercalateC]
      rw [hstep, charSplit_append_sep sep _ _ (h t (by simp)),
        ih (by simp) (fun u hu => h u (List.mem_cons_of_mem _ hu))]

theorem string_eq_empty_iff (s : String) : s = "" ↔ s.data = [] := by
  constructor
  · intro h; rw [h]
  · intro h; exact String.ext (by rw [h])

theorem map_mk_data (cs : List String) :
    cs.map (fun c => String.mk c.data) = cs := by
  induction cs with
  | nil => rfl
  | cons c rest ih => simp [ih]

theorem filter_of_wfComps (cs : List String) (h : ∀ c ∈ cs, wfComp c) :
    cs.filter (fun t => t ≠ "" ∧ t ≠ ".") = cs := by
  refine List.filter_eq_self.mpr (fun a ha => ?_)
  have hw := h a ha
  simp only [wfComp] at hw
  simp [hw.1, hw.2.1]

theorem not_slash_mem_map_data (cs : List String) (h : ∀ c ∈ cs, wfComp c) :
    ∀ t ∈ cs.map String.data, '/' ∉ t := by
  intro t ht
  rcases List.mem_map.mp ht with ⟨c, hc, rfl⟩
  exact (h c hc).2.2.2

theorem parsePath_cons (s : String) (c : Char) (cs : List Char)
    (h : s.data = c :: cs) :
    parsePath s = ⟨decide (c = '/'),
      ((charSplit '/' (c :: cs)).map String.mk).filter
        (fun t => t ≠ "" ∧ t ≠ ".")⟩ := by
  unfold parsePath
  rw [h]

theorem parsePath_toString_abs (comps : List String)
    (h : ∀ c ∈ comps, wfComp c) :
    parsePath (pathToString ⟨true, comps⟩) = ⟨true, comps⟩ := by
  have hdata : (pathToString ⟨true, comps⟩).data =
      '/' :: intercalateC ['/'] (comps.map String.data) := by
    simp [pathToString]
  rw [parsePath_cons _ _ _ hdata]
  cases comps with
  | nil => simp [intercalateC, charSplit_sep_cons, charSplit]
  | cons c0 cs0 =>
    rw [charSplit_sep_cons,
      charSplit_intercalateC '/' ((c0 :: cs0).map String.data) (by simp)
        (not_slash_mem_map_data _ h)]
    simp only [FsPath.mk.injEq]
    refine ⟨by simp, ?_⟩
    have hmk : ((c0 :: cs0).map String.data).map String.mk = c0 :: cs0 := by
      rw [List.map_map]
      exact map_mk_data _
    rw [List.map_cons, List.filter_cons]
    rw [if_neg (by simp)]
    rw [hmk]
    exact filter_of_wfComps _ h

theorem parsePath_toString_rel (comps : List String)
    (h : ∀ c ∈ comps, wfComp c) :
    parsePath (pathToString ⟨false, comps⟩) = ⟨false, comps⟩ := by
  cases comps with
  | nil => decide
  | cons c0 cs0 =>
    have h0 : wfComp c0 := h c0 (by simp)
    obtain ⟨x, xs, hx⟩ : ∃ x xs, c0.data = x :: xs := by
      rcases hd : c0.data with _ | ⟨x, xs⟩
      · exact absurd (String.ext (by rw [hd])) h0.1
      · exact ⟨x, xs, rfl⟩
    have hxc : x ∈ c0.data := by rw [hx]; exact List.mem_cons_self _ _
    have hxslash : x ≠ '/' := fun hh => h0.2.2.2 (hh ▸ hxc)
    have hdata : (pathToString ⟨false, c0 :: cs0⟩).data =
        intercalateC ['/'] ((c0 :: cs0).map String.data) := by
      simp [pathToString]
    obtain ⟨T, hT⟩ : ∃ T, intercalateC ['/'] ((c0 :: cs0).map String.data) =
        x :: T := by
      cases cs0 with
      | nil => exact ⟨xs, by simp [intercalateC, hx]⟩
      | cons c1 cs1 =>
        refine ⟨xs ++ '/' :: intercalateC ['/'] ((c1 :: cs1).map String.data), ?_⟩
        have : intercalateC ['/'] ((c0 :: c1 :: cs1).map String.data) =
            c0.data ++ '/' :: intercalateC ['/'] ((c1 :: cs1).map String.data) := by
          simp [intercalateC]
        rw [this, hx]
        simp
    rw [parsePath_cons _ _ _ (hdata.trans hT)]
    rw [← hT, charSplit_intercalateC '/' ((c0 :: cs0).map String.data) (by simp)
      (not_slash_mem_map_data _ h)]
    simp only [FsPath.mk.injEq]
    refine ⟨by simp [hxslash], ?_⟩
    have hmk : ((c0 :: cs0).map String.data).map String.mk = c0 :: cs0 := by
      rw [List.map_map]
      exact map_mk_data _
    rw [hmk]
    exact filter_of_wfComps _ h

theorem parsePath_pathToString (p : FsPath) (hw : wfComps p) :
    parsePath (pathToString p) = p := by
  obtain ⟨abs, comps⟩ := p
  cases abs
  · exact parsePath_toString_rel comps hw
  · exact parsePath_toString_abs comps hw

theorem foldl_normDotsStep (cs : List String) (h : ∀ c ∈ cs, wfComp c) :
    ∀ acc, cs.foldl normDotsStep acc = cs.reverse ++ acc := by
  induction cs with
  | nil => intro acc; simp
  | cons c rest ih =>
    intro acc
    have hc := h c (by simp)
    have hstep : normDotsStep acc c = c :: acc := by
      simp [normDotsStep, hc.2.1, hc.2.2.1]
    rw [List.foldl_cons, hstep, ih (fun u hu => h u (List.mem_cons_of_mem _ hu))]
    simp

theorem normDots_eq_self (cs : List String) (h : ∀ c ∈ cs, wfComp c) :
    normDots cs = cs := by
  unfold normDots
  rw [foldl_normDotsStep cs h []]
  simp

theorem resolveIn_eq_self (cwd p : FsPath) (ha : p.absolute = true)
    (hw : wfComps p) : resolveIn cwd p = p := by
  obtain ⟨abs, comps⟩ := p
  simp only at ha
  subst ha
  simp [resolveIn, normDots_eq_self comps hw]

theorem startsList_drop (pre : List String) :
    ∀ l, startsList pre l = true → pre ++ l.drop pre.length = l := by
  induction pre with
  | nil => intro l _; simp
  | cons a as' ih =>
    intro l h
    cases l with
    | nil => simp [startsList] at h
    | cons b bs =>
      simp only [startsList, Bool.and_eq_true, decide_eq_true_eq] at h
      obtain ⟨rfl, h2⟩ := h
      simp only [List.cons_append, List.length_cons, List.drop_succ_cons,
        List.cons.injEq, true_and]
      exact ih bs h2

theorem pathJoin_abs_right (p q : FsPath) (h : q.absolute = true) :
    pathJoin p q = q := by
  simp [pathJoin, h]

theorem pathJoin_rel_right (p q : FsPath) (h : q.absolute = false) :
    pathJoin p q = ⟨p.absolute, p.components ++ q.components⟩ := by
  simp [pathJoin, h]

theorem wfComps_drop (p : FsPath) (hw : wfComps p) (n : Nat) :
    wfComps ⟨false, p.components.drop n⟩ := by
  intro c hc
  exact hw c (List.mem_of_mem_drop hc)

/-- Round trip of one key through the store boundary: relativising an
absolute resolved key on save (`saveKey`), then re-absolutising the stored
string on load (`loadKey`), restores the key — whether or not the key lies
under the dataset root. -/
theorem loadKey_saveKey (cwd dR : FsPath) (ha : dR.absolute = true)
    (k : String) (hk : resolvedKeyStr k) :
    loadKey cwd dR (saveKey dR k) = k := by
  obtain ⟨hka, hkw, hkr⟩ := hk
  unfold saveKey
  rcases hrel : relative_to (parsePath k) dR with _ | rel
  · show loadKey cwd dR (pathToString (parsePath k)) = k
    rw [hkr]
    unfold loadKey
    rw [pathJoin_abs_right _ _ hka, resolveIn_eq_self cwd _ hka hkw, hkr]
  · show loadKey cwd dR (pathToString rel) = k
    unfold relative_to at hrel
    split at hrel
    case isFalse => exact Option.noConfusion hrel
    case isTrue hcond =>
      have hrel' : rel =
          ⟨false, (parsePath k).components.drop dR.components.length⟩ :=
        (Option.some.injEq _ _ ▸ hrel :
          (⟨false, (parsePath k).components.drop dR.components.length⟩ : FsPath) = rel).symm
      subst hrel'
      unfold loadKey
      rw [parsePath_pathToString _ (wfComps_drop (parsePath k) hkw _),
        pathJoin_rel_right dR _ rfl]
      have hjoin : (⟨dR.absolute,
          dR.components ++
            ((⟨false, (parsePath k).components.drop dR.components.length⟩ : FsPath)).components⟩ :
          FsPath) = ⟨true, (parsePath k).components⟩ := by
        rw [ha]
        show (⟨true, dR.components ++
          (parsePath k).components.drop dR.components.length⟩ : FsPath) = _
        rw [startsList_drop _ _ hcond.2]
      rw [hjoin]
      have hself : resolveIn cwd ⟨true, (parsePath k).components⟩ =
          ⟨true, (parsePath k).components⟩ :=
        resolveIn_eq_self cwd _ rfl hkw
      rw [hself]
      have heta : (⟨true, (parsePath k).components⟩ : FsPath) = parsePath k := by
        rw [← hka]
      rw [heta, hkr]

/-! ## Save / load round trip (C1) -/

theorem map_eq_self_of_mem {α : Type} (l : List α) (f : α → α)
    (h : ∀ a ∈ l, f a = a) : l.map f = l := by
  induction l with
  | nil => rfl
  | cons a rest ih =>
    rw [List.map_cons, h a (by simp), ih (fun b hb => h b (List.mem_cons_of_mem _ hb))]

theorem saveOutGo_eq (dR : FsPath) :
    ∀ (m : Meta) (out : List (String × Entry)),
      (∀ kv ∈ m, ∀ kv' ∈ out, kv'.1 ≠ saveKey dR kv.1) →
      (m.map (fun kv => saveKey dR kv.1)).Nodup →
      saveOutGo dR m out = out ++ m.map (fun kv => (saveKey dR kv.1, kv.2)) := by
  intro m
  induction m with
  | nil => intro out _ _; simp [saveOutGo]
  | cons kv rest ih =>
    intro out hfresh hnd
    obtain ⟨k, v⟩ := kv
    have hins : dictInsert out (saveKey dR k) v = out ++ [(saveKey dR k, v)] :=
      dictInsert_of_forall_ne out _ v
        (fun kv' hkv' => hfresh (k, v) (by simp) kv' hkv')
    have hnd0 : (saveKey dR k :: rest.map (fun kv => saveKey dR kv.1)).Nodup := hnd
    have hnd' := List.nodup_cons.mp hnd0
    have hrest := ih (out ++ [(saveKey dR k, v)])
      (fun kv2 hkv2 kv' hkv' => by
        rcases List.mem_append.mp hkv' with h1 | h1
        · exact hfresh kv2 (List.mem_cons_of_mem _ hkv2) kv' h1
        · have hkv'eq : kv' = (saveKey dR k, v) := by simpa using h1
          rw [hkv'eq]
          intro hh
          have hh' : saveKey dR k = saveKey dR kv2.1 := hh
          exact hnd'.1 (by
            rw [hh']
            exact List.mem_map.mpr ⟨kv2, hkv2, rfl⟩))
      hnd'.2
    show saveOutGo dR rest (dictInsert out (saveKey dR k) v) = _
    rw [hins, hrest]
    simp

theorem loadGo_eq (cwd dR : FsPath) :
    ∀ (fields : List (String × Entry)) (out : Meta),
      (∀ kv ∈ fields, ∀ kv' ∈ out, kv'.1 ≠ loadKey cwd dR kv.1) →
      (fields.map (fun kv => loadKey cwd dR kv.1)).Nodup →
      loadGo cwd dR (fields.map (fun kv => (kv.1, Json.obj kv.2))) out =
        out ++ fields.map (fun kv => (loadKey cwd dR kv.1, loadEntry kv.2)) := by
  intro fields
  induction fields with
  | nil => intro out _ _; simp [loadGo]
  | cons kv rest ih =>
    intro out hfresh hnd
    obtain ⟨k, v⟩ := kv
    have hins : dictInsert out (loadKey cwd dR k) (loadEntry v) =
        out ++ [(loadKey cwd dR k, loadEntry v)] :=
      dictInsert_of_forall_ne out _ _
        (fun kv' hkv' => hfresh (k, v) (by simp) kv' hkv')
    have hnd0 : (loadKey cwd dR k :: rest.map (fun kv => loadKey cwd dR kv.1)).Nodup := hnd
    have hnd' := List.nodup_cons.mp hnd0
    have hrest := ih (out ++ [(loadKey cwd dR k, loadEntry v)])
      (fun kv2 hkv2 kv' hkv' => by
        rcases List.mem_append.mp hkv' with h1 | h1
        · exact hfresh kv2 (List.mem_cons_of_mem _ hkv2) kv' h1
        · have hkv'eq : kv' = (loadKey cwd dR k, loadEntry v) := by simpa using h1
          rw [hkv'eq]
          intro hh
          have hh' : loadKey cwd dR k = loadKey cwd dR kv2.1 := hh
          exact hnd'.1 (by
            rw [hh']
            exact List.mem_map.mpr ⟨kv2, hkv2, rfl⟩))
      hnd'.2
    show loadGo cwd dR ((k, Json.obj v) :: rest.map (fun kv => (kv.1, Json.obj kv.2)))
      out = _
    simp only [loadGo]
    rw [hins, hrest]
    simp

theorem loadEntry_of_str_fields (t n : String) :
    loadEntry [("tags", Json.str t), ("notes", Json.str n)] =
      [("tags", Json.str t), ("notes", Json.str n)] := by
  by_cases ht : t = "" <;> by_cases hn : n = "" <;>
    simp [loadEntry, pyGetOrEmptyStr, alistGet?, jsonFalsy, ht, hn]

theorem map_congr_mem {α β : Type} (l : List α) (f g : α → β)
    (h : ∀ a ∈ l, f a = g a) : l.map f = l.map g := by
  induction l with
  | nil => rfl
  | cons a rest ih =>
    rw [List.map_cons, List.map_cons, h a (by simp),
      ih (fun b hb => h b (List.mem_cons_of_mem _ hb))]

/-- Core of the save/load round trip: parsing the sidecar object written by
`save_metadata` back through `load_metadata` restores the in-memory mapping
exactly, for any mapping whose keys are distinct resolved absolute path
strings and whose entries are string-valued tags/notes dictionaries. -/
theorem save_load_core (cwd dd : FsPath) (m : Meta) (now : PyDateTime)
    (hdd : dd.absolute = true) (hw : wfComps dd)
    (hkeys : ∀ kv ∈ m, resolvedKeyStr kv.1)
    (hvals : ∀ kv ∈ m, ∃ t n,
      kv.2 = [("tags", Json.str t), ("notes", Json.str n)])
    (hnodup : (m.map Prod.fst).Nodup) :
    load_metadata cwd dd (.ok (save_metadata cwd dd m now).sidecarContent) =
      .ok m := by
  have hdR : resolveIn cwd dd = dd := resolveIn_eq_self cwd dd hdd hw
  have hkeys' : ∀ k ∈ m.map Prod.fst, resolvedKeyStr k := by
    intro k hk
    rcases List.mem_map.mp hk with ⟨kv, hkv, rfl⟩
    exact hkeys kv hkv
  have hback : ∀ kv, kv ∈ m → loadKey cwd dd (saveKey dd kv.1) = kv.1 :=
    fun kv hkv => loadKey_saveKey cwd dd hdd kv.1 (hkeys kv hkv)
  have hinj : ∀ x ∈ m.map Prod.fst, ∀ y ∈ m.map Prod.fst,
      saveKey dd x = saveKey dd y → x = y := by
    intro x hx y hy hxy
    have h1 := loadKey_saveKey cwd dd hdd x (hkeys' x hx)
    have h2 := loadKey_saveKey cwd dd hdd y (hkeys' y hy)
    rw [← h1, ← h2, hxy]
  have hndsave : (m.map (fun kv => saveKey dd kv.1)).Nodup := by
    have heq : m.map (fun kv => saveKey dd kv.1) =
        (m.map Prod.fst).map (saveKey dd) := by
      rw [List.map_map]
      rfl
    rw [heq]
    exact List.Nodup.map_on hinj hnodup
  have hsave : save_out cwd dd m =
      m.map (fun kv => (saveKey dd kv.1, kv.2)) := by
    unfold save_out
    rw [hdR]
    have := saveOutGo_eq dd m []
      (fun kv _ kv' hkv' => absurd hkv' (List.not_mem_nil _)) hndsave
    simpa using this
  have hfields : (save_metadata cwd dd m now).sidecarContent =
      Json.obj ((m.map (fun kv => (saveKey dd kv.1, kv.2))).map
        (fun kv => (kv.1, Json.obj kv.2))) := by
    show Json.obj ((save_out cwd dd m).map (fun kv => (kv.1, Json.obj kv.2))) = _
    rw [hsave]
  rw [hfields]
  refine congrArg Except.ok ?_
  set F : List (String × Entry) := m.map (fun kv => (saveKey dd kv.1, kv.2)) with hF
  have hFkeys : F.map (fun kv => loadKey cwd dd kv.1) = m.map Prod.fst := by
    rw [hF, List.map_map]
    exact map_congr_mem m _ _ (fun kv hkv => hback kv hkv)
  have hload := loadGo_eq cwd dd F []
    (fun kv _ kv' hkv' => absurd hkv' (List.not_mem_nil _))
    (by rw [hFkeys]; exact hnodup)
  show load_core cwd dd (Json.obj (F.map (fun kv => (kv.1, Json.obj kv.2)))) = m
  have hcore : load_core cwd dd (Json.obj (F.map (fun kv => (kv.1, Json.obj kv.2)))) =
      loadGo cwd (resolveIn cwd dd) (F.map (fun kv => (kv.1, Json.obj kv.2))) [] := rfl
  rw [hcore, hdR, hload]
  rw [hF, List.map_map]
  simp only [List.nil_append]
  refine map_eq_self_of_mem m _ (fun kv hkv => ?_)
  obtain ⟨k, e⟩ := kv
  have hk := hback (k, e) hkv
  rcases hvals (k, e) hkv with ⟨t, n, hv⟩
  show (loadKey cwd dd (saveKey dd k), loadEntry e) = (k, e)
  simp only at hk hv
  rw [hk, hv, loadEntry_of_str_fields]

/-! ## Merge lemmas (C2) -/

/-- The entry `merge_with_video_list` builds for resolved key `k`: the stored
entry (or a fresh one), with `tags` and `notes` defaulted to `""`. -/
def mergeEntry (metadata : Meta) (k : String) : Entry :=
  dictSetdefault
    (dictSetdefault ((alistGet? metadata k).getD freshEntry) "tags" (Json.str ""))
    "notes" (Json.str "")

theorem mergeGo_get (cwd : FsPath) (metadata : Meta) :
    ∀ (vps : List FsPath) (acc : Meta) (k : String),
      alistGet? (mergeGo cwd metadata vps acc) k =
        if k ∈ vps.map (fun p => pathToString (resolveIn cwd p))
        then some (mergeEntry metadata k)
        else alistGet? acc k := by
  intro vps
  induction vps with
  | nil => intro acc k; simp [mergeGo]
  | cons p rest ih =>
    intro acc k
    show alistGet? (mergeGo cwd metadata rest
      (dictInsert acc (pathToString (resolveIn cwd p))
        (mergeEntry metadata (pathToString (resolveIn cwd p))))) k = _
    rw [ih]
    by_cases h1 : k ∈ rest.map (fun p => pathToString (resolveIn cwd p))
    · simp [h1]
    · rw [if_neg h1, alistGet?_dictInsert]
      by_cases h2 : pathToString (resolveIn cwd p) = k
      · rw [if_pos h2, h2]
        have hmem : k ∈ List.map (fun p => pathToString (resolveIn cwd p)) (p :: rest) := by
          rw [List.map_cons]
          exact List.mem_cons.mpr (Or.inl h2.symm)
        rw [if_pos hmem]
      · rw [if_neg h2]
        have : ¬ k ∈ (p :: rest).map (fun p => pathToString (resolveIn cwd p)) := by
          simp only [List.map_cons, List.mem_cons]
          rintro (h3 | h3)
          · exact h2 h3.symm
          · exact h1 h3
        rw [if_neg this]

theorem mem_mergeGo (cwd : FsPath) (metadata : Meta) :
    ∀ (vps : List FsPath) (acc : Meta) (kv : String × Entry),
      kv ∈ mergeGo cwd metadata vps acc →
      kv ∈ acc ∨ ∃ k, kv = (k, mergeEntry metadata k) := by
  intro vps
  induction vps with
  | nil => intro acc kv h; exact Or.inl h
  | cons p rest ih =>
    intro acc kv h
    rcases ih _ kv h with h1 | h1
    · rcases mem_dictInsert _ _ _ _ h1 with h2 | h2
      · exact Or.inl h2
      · exact Or.inr ⟨pathToString (resolveIn cwd p), h2⟩
    · exact Or.inr h1

theorem entryTagsOk_mergeEntry (metadata : Meta) (k : String)
    (h : ∀ kv ∈ metadata, entryTagsOk kv.2 = true) :
    entryTagsOk (mergeEntry metadata k) = true := by
  unfold mergeEntry
  rcases hg : alistGet? metadata k with _ | e
  · decide
  · have h1 : alistGet? (dictSetdefault (dictSetdefault ((some e).getD freshEntry)
        "tags" (Json.str "")) "notes" (Json.str "")) "tags" =
        alistGet? (dictSetdefault e "tags" (Json.str "")) "tags" := by
      rw [alistGet?_dictSetdefault]
      simp
    have h2 : alistGet? (dictSetdefault e "tags" (Json.str "")) "tags" =
        some ((alistGet? e "tags").getD (Json.str "")) := by
      rw [alistGet?_dictSetdefault]
      simp
    unfold entryTagsOk
    rw [h1, h2]
    rcases ht : alistGet? e "tags" with _ | v
    · simp [normalize_tags]
    · have hok := h (k, e) (alistGet?_mem _ _ _ hg)
      unfold entryTagsOk at hok
      rw [ht] at hok
      simpa using hok

/-! ## Tag normalization lemmas (C3, C4) -/

theorem mem_of_mem_dropWhile (p : Char → Bool) (l : List Char) (c : Char)
    (h : c ∈ l.dropWhile p) : c ∈ l := by
  induction l with
  | nil => simp at h
  | cons a rest ih =>
    rw [List.dropWhile_cons] at h
    by_cases ha : p a
    · rw [if_pos ha] at h
      exact List.mem_cons_of_mem _ (ih h)
    · rw [if_neg ha] at h
      exact h

theorem mem_of_mem_stripChars (t : List Char) (c : Char)
    (h : c ∈ stripChars t) : c ∈ t := by
  unfold stripChars at h
  rw [List.mem_reverse] at h
  have h1 := mem_of_mem_dropWhile _ _ _ h
  rw [List.mem_reverse] at h1
  exact mem_of_mem_dropWhile _ _ _ h1

theorem dropWhile_eq_self_of_all (p : Char → Bool) (l : List Char)
    (h : ∀ c ∈ l, p c = false) : l.dropWhile p = l := by
  cases l with
  | nil => rfl
  | cons a rest =>
    rw [List.dropWhile_cons, if_neg (by simp [h a (by simp)])]

theorem stripChars_of_no_ws (t : List Char) (h : ∀ c ∈ t, pyWs c = false) :
    stripChars t = t := by
  unfold stripChars
  rw [dropWhile_eq_self_of_all pyWs t h,
    dropWhile_eq_self_of_all pyWs t.reverse
      (fun c hc => h c (List.mem_reverse.mp hc)),
    List.reverse_reverse]

theorem pyWs_eq_false_of_sep (c : Char) (h : isSepChar c = false) :
    pyWs c = false := by
  unfold isSepChar at h
  rcases Bool.or_eq_false_iff.mp h with ⟨h1, _⟩
  exact Bool.or_eq_false_iff.mp h1 |>.1

/-- Every piece produced by `splitGo` is free of separator characters,
provided the accumulated current piece is. -/
theorem splitGo_sepFree (l : List Char) :
    ∀ (st : Option (List Char)),
      (∀ cur ∈ st, ∀ c ∈ cur, isSepChar c = false) →
      ∀ t ∈ splitGo st l, ∀ c ∈ t, isSepChar c = false := by
  induction l with
  | nil =>
    intro st hst t ht c hc
    cases st with
    | none =>
      simp only [splitGo, List.mem_singleton] at ht
      subst ht
      simp at hc
    | some cur =>
      simp only [splitGo, List.mem_singleton] at ht
      subst ht
      exact hst cur rfl c (List.mem_reverse.mp hc)
  | cons a rest ih =>
    intro st hst t ht c hc
    cases st with
    | some cur =>
      by_cases ha : isSepChar a
      · simp only [splitGo, if_pos ha] at ht
        rcases List.mem_cons.mp ht with h1 | h1
        · subst h1
          exact hst cur rfl c (List.mem_reverse.mp hc)
        · exact ih none (by simp) t h1 c hc
      · simp only [splitGo, if_neg ha] at ht
        refine ih (some (a :: cur)) ?_ t ht c hc
        intro cur' hcur' c' hc'
        rw [Option.mem_def] at hcur'
        injection hcur' with hcur'
        subst hcur'
        rcases List.mem_cons.mp hc' with rfl | h2
        · simpa using ha
        · exact hst cur rfl c' h2
    | none =>
      by_cases ha : isSepChar a
      · simp only [splitGo, if_pos ha] at ht
        exact ih none (by simp) t ht c hc
      · simp only [splitGo, if_neg ha] at ht
        refine ih (some [a]) ?_ t ht c hc
        intro cur' hcur' c' hc'
        rw [Option.mem_def] at hcur'
        injection hcur' with hcur'
        subst hcur'
        rcases List.mem_cons.mp hc' with rfl | h2
        · simpa using ha
        · simp at h2

theorem filter_splitGo_none (l : List Char) :
    (splitGo none l).filter (fun t => t ≠ []) =
      (splitGo (some []) l).filter (fun t => t ≠ []) := by
  cases l with
  | nil => rfl
  | cons a rest =>
    by_cases ha : isSepChar a
    · simp only [splitGo, if_pos ha, List.filter_cons]
      simp
    · simp only [splitGo, if_neg ha]

theorem filter_splitGo_dropWhile (l : List Char) :
    ((splitGo (some []) (l.dropWhile pyWs)).filter (fun t => t ≠ [])) =
      (splitGo (some []) l).filter (fun t => t ≠ []) := by
  induction l with
  | nil => rfl
  | cons a rest ih =>
    by_cases ha : pyWs a
    · have hsep : isSepChar a = true := by simp [isSepChar, ha]
      have h2 : (splitGo (some []) (a :: rest)).filter (fun t => t ≠ []) =
          (splitGo none rest).filter (fun t => t ≠ []) := by
        simp only [splitGo, if_pos hsep, List.filter_cons]
        simp
      rw [List.dropWhile_cons, if_pos ha, ih, h2]
      exact (filter_splitGo_none rest).symm
    · rw [List.dropWhile_cons, if_neg (by simp [ha])]

theorem filter_splitGo_append_sep (w : Char) (hw : isSepChar w = true) :
    ∀ (l : List Char) (st : Option (List Char)),
      (splitGo st (l ++ [w])).filter (fun t => t ≠ []) =
        (splitGo st l).filter (fun t => t ≠ []) := by
  intro l
  induction l with
  | nil =>
    intro st
    cases st with
    | some cur => simp [splitGo, hw, List.filter_cons]
    | none => simp [splitGo, hw]
  | cons a rest ih =>
    intro st
    cases st with
    | some cur =>
      by_cases ha : isSepChar a
      · simp only [List.cons_append, splitGo, if_pos ha, List.filter_cons,
          List.append_eq]
        rw [ih none]
      · simp only [List.cons_append, splitGo, if_neg ha]
        exact ih (some (a :: cur))
    | none =>
      by_cases ha : isSepChar a
      · simp only [List.cons_append, splitGo, if_pos ha]
        exact ih none
      · simp only [List.cons_append, splitGo, if_neg ha]
        exact ih (some [a])

theorem filter_splitGo_backstrip (l : List Char) :
    ((splitGo (some []) ((l.reverse.dropWhile pyWs).reverse)).filter
      (fun t => t ≠ [])) =
      (splitGo (some []) l).filter (fun t => t ≠ []) := by
  induction l using List.reverseRecOn with
  | nil => rfl
  | append_singleton l a ih =>
    by_cases ha : pyWs a
    · have hsep : isSepChar a = true := by simp [isSepChar, ha]
      have hrev : (l ++ [a]).reverse.dropWhile pyWs = l.reverse.dropWhile pyWs := by
        rw [List.reverse_append]
        simp [List.dropWhile_cons, ha]
      rw [hrev, ih, filter_splitGo_append_sep a hsep l]
    · have hrev : ((l ++ [a]).reverse.dropWhile pyWs).reverse = l ++ [a] := by
        rw [List.reverse_append]
        simp only [List.reverse_singleton, List.singleton_append]
        rw [List.dropWhile_cons, if_neg (by simp [ha]), List.reverse_cons,
          List.reverse_reverse]
      rw [hrev]

theorem filter_splitGo_strip (l : List Char) :
    ((splitGo (some []) (stripChars l)).filter (fun t => t ≠ [])) =
      (splitGo (some []) l).filter (fun t => t ≠ []) := by
  unfold stripChars
  rw [filter_splitGo_backstrip (l.dropWhile pyWs), filter_splitGo_dropWhile l]

theorem map_strip_filter (parts : List (List Char))
    (h : ∀ t ∈ parts, ∀ c ∈ t, isSepChar c = false) :
    (parts.map stripChars).filter (fun t => t ≠ []) =
      parts.filter (fun t => t ≠ []) := by
  rw [map_eq_self_of_mem parts stripChars
    (fun t ht => stripChars_of_no_ws t
      (fun c hc => pyWs_eq_false_of_sep c (h t ht c hc)))]

theorem tokens_strip_eq (l : List Char) :
    ((reSplitSeps (stripChars l)).map stripChars).filter (fun t => t ≠ []) =
      ((reSplitSeps l).map stripChars).filter (fun t => t ≠ []) := by
  unfold reSplitSeps
  rw [map_strip_filter _ (splitGo_sepFree (stripChars l) (some []) (by simp)),
    map_strip_filter _ (splitGo_sepFree l (some []) (by simp)),
    filter_splitGo_strip]

/-- `normalize_tags` agrees with the spec-modelled description on every
input: the code's pre-strip and empty-input guard change nothing once empty
tokens are dropped. -/
theorem normalize_tags_eq_spec (raw : String) :
    normalize_tags raw = normalizeTagsSpec raw := by
  unfold normalize_tags normalizeTagsSpec
  by_cases hg : raw = "" ∨ pyStrip raw = ""
  · rw [if_pos hg]
    have hsd : stripChars raw.data = [] := by
      rcases hg with hg | hg
      · rw [hg]
        rfl
      · exact (string_eq_empty_iff (pyStrip raw)).mp hg
    rw [← tokens_strip_eq raw.data, hsd]
    rfl
  · rw [if_neg hg]
    have hds : (pyStrip raw).data = stripChars raw.data := rfl
    rw [hds, tokens_strip_eq]

theorem normalize_tags_of_strip_empty (raw : String) (h : pyStrip raw = "") :
    normalize_tags raw = "" := by
  unfold normalize_tags
  rw [if_pos (Or.inr h)]

/-! ## Idempotence of tag normalization (C4) -/

theorem splitGo_of_sepFree_token (t : List Char)
    (h : ∀ c ∈ t, isSepChar c = false) :
    ∀ cur, splitGo (some cur) t = [cur.reverse ++ t] := by
  induction t with
  | nil => intro cur; simp [splitGo]
  | cons a t' ih =>
    intro cur
    have ha : isSepChar a = false := h a (by simp)
    simp only [splitGo]
    rw [if_neg (by simp [ha])]
    rw [ih (fun c hc => h c (List.mem_cons_of_mem _ hc)) (a :: cur)]
    simp

theorem splitGo_token_append (t : List Char)
    (h : ∀ c ∈ t, isSepChar c = false) :
    ∀ (cur r : List Char),
      splitGo (some cur) (t ++ r) = splitGo (some (t.reverse ++ cur)) r := by
  induction t with
  | nil => intro cur r; simp
  | cons a t' ih =>
    intro cur r
    have ha : isSepChar a = false := h a (by simp)
    simp only [List.cons_append, splitGo, List.append_eq]
    rw [if_neg (by simp [ha])]
    rw [ih (fun c hc => h c (List.mem_cons_of_mem _ hc)) (a :: cur) r]
    have heq : t'.reverse ++ (a :: cur) = (a :: t').reverse ++ cur := by simp
    rw [heq]

theorem splitGo_none_eq_some_of_head (r : List Char)
    (h : r = [] ∨ ∃ c r', r = c :: r' ∧ isSepChar c = false) :
    splitGo none r = splitGo (some []) r := by
  rcases h with rfl | ⟨c, r', rfl, hc⟩
  · rfl
  · simp only [splitGo]
    rw [if_neg (by simp [hc]), if_neg (by simp [hc])]

theorem intercalate_head (toks : List (List Char)) (c : Char) (t' : List Char) :
    ∃ r', intercalateC (';' :: ' ' :: []) ((c :: t') :: toks) = c :: r' := by
  cases toks with
  | nil => exact ⟨t', rfl⟩
  | cons t2 ts2 =>
    exact ⟨t' ++ (';' :: ' ' :: []) ++ intercalateC (';' :: ' ' :: []) (t2 :: ts2),
      by simp [intercalateC]⟩

theorem splitGo_intercalate :
    ∀ toks : List (List Char), toks ≠ [] →
      (∀ t ∈ toks, t ≠ [] ∧ ∀ c ∈ t, isSepChar c = false) →
      splitGo (some []) (intercalateC (';' :: ' ' :: []) toks) = toks := by
  intro toks
  induction toks with
  | nil => intro h; exact absurd rfl h
  | cons t ts ih =>
    intro _ hall
    have ht := hall t (by simp)
    cases ts with
    | nil =>
      have hone : intercalateC (';' :: ' ' :: []) [t] = t := rfl
      rw [hone, splitGo_of_sepFree_token t ht.2 []]
      simp
    | cons t2 ts2 =>
      have hstep : intercalateC (';' :: ' ' :: []) (t :: t2 :: ts2) =
          t ++ (';' :: ' ' :: intercalateC (';' :: ' ' :: []) (t2 :: ts2)) := by
        show t ++ (';' :: ' ' :: []) ++ intercalateC (';' :: ' ' :: []) (t2 :: ts2) = _
        simp
      rw [hstep, splitGo_token_append t ht.2 []]
      have h1 : splitGo (some (t.reverse ++ []))
          (';' :: ' ' :: intercalateC (';' :: ' ' :: []) (t2 :: ts2)) =
          (t.reverse ++ []).reverse ::
            splitGo none (' ' :: intercalateC (';' :: ' ' :: []) (t2 :: ts2)) := by
        simp only [splitGo]
        rw [if_pos (by decide)]
      have h2 : splitGo none (' ' :: intercalateC (';' :: ' ' :: []) (t2 :: ts2)) =
          splitGo none (intercalateC (';' :: ' ' :: []) (t2 :: ts2)) := by
        simp only [splitGo]
        rw [if_pos (by decide)]
      rw [h1, h2]
      have ht2 := hall t2 (by simp)
      obtain ⟨c2, t2', rfl⟩ : ∃ c2 t2', t2 = c2 :: t2' := by
        rcases hh : t2 with _ | ⟨c2, t2'⟩
        · exact absurd rfl (hh ▸ ht2).1
        · exact ⟨c2, t2', rfl⟩
      obtain ⟨r', hr'⟩ := intercalate_head ts2 c2 t2'
      have h3 : splitGo none (intercalateC (';' :: ' ' :: []) ((c2 :: t2') :: ts2)) =
          splitGo (some []) (intercalateC (';' :: ' ' :: []) ((c2 :: t2') :: ts2)) := by
        refine splitGo_none_eq_some_of_head _ (Or.inr ⟨c2, r', hr', ?_⟩)
        exact ht2.2 c2 (by simp)
      rw [h3, ih (by simp) (fun u hu => hall u (List.mem_cons_of_mem _ hu))]
      simp

/-- Any `"; "`-join of nonempty separator-free tokens is a fixed point of
`normalize_tags`. -/
theorem normalize_tags_fixed (toks : List (List Char))
    (hall : ∀ t ∈ toks, t ≠ [] ∧ ∀ c ∈ t, isSepChar c = false) :
    normalize_tags (String.mk (intercalateC (';' :: ' ' :: []) toks)) =
      String.mk (intercalateC (';' :: ' ' :: []) toks) := by
  cases toks with
  | nil =>
    have h0 : String.mk (intercalateC (';' :: ' ' :: []) ([] : List (List Char))) =
        "" := rfl
    rw [h0]
    unfold normalize_tags
    rw [if_pos (Or.inl rfl)]
  | cons t0 ts =>
    have hd : (String.mk (intercalateC (';' :: ' ' :: []) (t0 :: ts))).data =
        intercalateC (';' :: ' ' :: []) (t0 :: ts) := rfl
    have hsplit : reSplitSeps
        (String.mk (intercalateC (';' :: ' ' :: []) (t0 :: ts))).data = t0 :: ts := by
      rw [hd]
      exact splitGo_intercalate (t0 :: ts) (by simp) hall
    have hfilt : ((reSplitSeps (stripChars
        (String.mk (intercalateC (';' :: ' ' :: []) (t0 :: ts))).data)).map
          stripChars).filter (fun t => t ≠ []) = t0 :: ts := by
      rw [tokens_strip_eq, hsplit,
        map_eq_self_of_mem _ stripChars
          (fun t ht => stripChars_of_no_ws t
            (fun c hc => pyWs_eq_false_of_sep c ((hall t ht).2 c hc)))]
      exact List.filter_eq_self.mpr (fun t ht => by simpa using (hall t ht).1)
    obtain ⟨c0, t0', rfl⟩ : ∃ c0 t0', t0 = c0 :: t0' := by
      rcases hh : t0 with _ | ⟨c0, t0'⟩
      · exact absurd hh ((hall t0 (by simp)).1)
      · exact ⟨c0, t0', rfl⟩
    obtain ⟨r1, hr1⟩ := intercalate_head ts c0 t0'
    have hguard :
        ¬ (String.mk (intercalateC (';' :: ' ' :: []) ((c0 :: t0') :: ts)) = "" ∨
          pyStrip (String.mk (intercalateC (';' :: ' ' :: []) ((c0 :: t0') :: ts))) = "") := by
      rintro (h1 | h1)
      · have h2 := (string_eq_empty_iff _).mp h1
        rw [hd, hr1] at h2
        exact List.noConfusion h2
      · have h2 := (string_eq_empty_iff _).mp h1
        have h3 : stripChars
            (String.mk (intercalateC (';' :: ' ' :: []) ((c0 :: t0') :: ts))).data =
            [] := h2
        rw [h3] at hfilt
        simp [reSplitSeps, splitGo, stripChars] at hfilt
    unfold normalize_tags
    rw [if_neg hguard]
    have hds : (pyStrip
        (String.mk (intercalateC (';' :: ' ' :: []) ((c0 :: t0') :: ts)))).data =
        stripChars
          (String.mk (intercalateC (';' :: ' ' :: []) ((c0 :: t0') :: ts))).data := rfl
    rw [hds, hfilt]

/-- `normalize_tags` is idempotent. -/
theorem normalize_tags_idem (s : String) :
    normalize_tags (normalize_tags s) = normalize_tags s := by
  by_cases hg : s = "" ∨ pyStrip s = ""
  · have h0 : normalize_tags s = "" := by
      unfold normalize_tags
      rw [if_pos hg]
    rw [h0]
    unfold normalize_tags
    rw [if_pos (Or.inl rfl)]
  · have hrepr : normalize_tags s = String.mk (intercalateC (';' :: ' ' :: [])
        (((reSplitSeps (pyStrip s).data).map stripChars).filter
          (fun t => t ≠ []))) := by
      unfold normalize_tags
      rw [if_neg hg]
    have hall : ∀ t ∈ ((reSplitSeps (pyStrip s).data).map stripChars).filter
        (fun t => t ≠ []), t ≠ [] ∧ ∀ c ∈ t, isSepChar c = false := by
      intro t ht
      have h1 := List.mem_filter.mp ht
      refine ⟨by simpa using h1.2, ?_⟩
      intro c hc
      rcases List.mem_map.mp h1.1 with ⟨u, hu, rfl⟩
      exact splitGo_sepFree _ (some []) (by simp) u hu c
        (mem_of_mem_stripChars u c hc)
    rw [hrepr]
    exact normalize_tags_fixed _ hall

/-! ## Load error-handling lemmas (C5) -/

theorem loadGo_filter_obj (cwd dR : FsPath) :
    ∀ (fields : List (String × Json)) (out : Meta),
      loadGo cwd dR fields out =
        loadGo cwd dR (fields.filter (fun kv => jsonIsObj kv.2)) out := by
  intro fields
  induction fields with
  | nil => intro out; rfl
  | cons kv rest ih =>
    intro out
    obtain ⟨rk, v⟩ := kv
    cases v <;>
      simp only [loadGo, jsonIsObj, List.filter_cons] <;>
      first
        | exact ih out
        | exact ih _

theorem loadGo_preserves_isSome (cwd dR : FsPath) :
    ∀ (fields : List (String × Json)) (out : Meta) (k : String),
      (alistGet? out k).isSome = true →
      (alistGet? (loadGo cwd dR fields out) k).isSome = true := by
  intro fields
  induction fields with
  | nil => intro out k h; exact h
  | cons kv rest ih =>
    intro out k h
    obtain ⟨rk, v⟩ := kv
    cases v <;> simp only [loadGo] <;> try exact ih out k h
    refine ih _ k ?_
    rw [alistGet?_dictInsert]
    by_cases hk : loadKey cwd dR rk = k
    · rw [if_pos hk]; rfl
    · rw [if_neg hk]; exact h

theorem loadGo_key_isSome (cwd dR : FsPath) :
    ∀ (fields : List (String × Json)) (out : Meta) (rk : String)
      (vf : List (String × Json)), (rk, Json.obj vf) ∈ fields →
      (alistGet? (loadGo cwd dR fields out) (loadKey cwd dR rk)).isSome = true := by
  intro fields
  induction fields with
  | nil => intro out rk vf h; simp at h
  | cons kv rest ih =>
    intro out rk vf h
    rcases List.mem_cons.mp h with h1 | h1
    · rw [← h1]
      show (alistGet? (loadGo cwd dR rest
        (dictInsert out (loadKey cwd dR rk) (loadEntry vf))) (loadKey cwd dR rk)).isSome = true
      refine loadGo_preserves_isSome cwd dR rest _ _ ?_
      rw [alistGet?_dictInsert, if_pos rfl]
      rfl
    · obtain ⟨rk', v'⟩ := kv
      cases v' <;> simp only [loadGo] <;> exact ih _ rk vf h1

theorem loadGo_keys_from (cwd dR : FsPath) :
    ∀ (fields : List (String × Json)) (out : Meta) (kv : String × Entry),
      kv ∈ loadGo cwd dR fields out →
      kv ∈ out ∨ ∃ kv' ∈ fields, kv.1 = loadKey cwd dR kv'.1 := by
  intro fields
  induction fields with
  | nil => intro out kv h; exact Or.inl h
  | cons kv0 rest ih =>
    intro out kv h
    obtain ⟨rk, v⟩ := kv0
    have hnext : ∀ out', kv ∈ loadGo cwd dR rest out' →
        (kv ∈ out' ∨ ∃ kv' ∈ rest, kv.1 = loadKey cwd dR kv'.1) := fun out' hh => ih out' kv hh
    cases v with
    | obj vf =>
      rcases hnext _ h with h1 | h1
      · rcases mem_dictInsert _ _ _ _ h1 with h2 | h2
        · exact Or.inl h2
        · exact Or.inr ⟨(rk, Json.obj vf), by simp, by rw [h2]⟩
      · rcases h1 with ⟨kv', hkv', hk⟩
        exact Or.inr ⟨kv', List.mem_cons_of_mem _ hkv', hk⟩
    | null =>
      rcases hnext _ h with h1 | h1
      · exact Or.inl h1
      · rcases h1 with ⟨kv', hkv', hk⟩
        exact Or.inr ⟨kv', List.mem_cons_of_mem _ hkv', hk⟩
    | bool b =>
      rcases hnext _ h with h1 | h1
      · exact Or.inl h1
      · rcases h1 with ⟨kv', hkv', hk⟩
        exact Or.inr ⟨kv', List.mem_cons_of_mem _ hkv', hk⟩
    | num n =>
      rcases hnext _ h with h1 | h1
      · exact Or.inl h1
      · rcases h1 with ⟨kv', hkv', hk⟩
        exact Or.inr ⟨kv', List.mem_cons_of_mem _ hkv', hk⟩
    | str s =>
      rcases hnext _ h with h1 | h1
      · exact Or.inl h1
      · rcases h1 with ⟨kv', hkv', hk⟩
        exact Or.inr ⟨kv', List.mem_cons_of_mem _ hkv', hk⟩
    | arr l =>
      rcases hnext _ h with h1 | h1
      · exact Or.inl h1
      · rcases h1 with ⟨kv', hkv', hk⟩
        exact Or.inr ⟨kv', List.mem_cons_of_mem _ hkv', hk⟩

/-! ## History naming lemmas (C6) -/

theorem historyName_eq (cwd dd : FsPath) (m : Meta) (now : PyDateTime) :
    (save_metadata cwd dd m now).historyName =
      "video_metadata_" ++ strftimeTS now ++ ".json" := by
  show fileStem METADATA_FILENAME ++ "_" ++ strftimeTS now ++
    fileSuffix METADATA_FILENAME = _
  have h1 : fileStem METADATA_FILENAME = "video_metadata" := by rfl
  have h2 : fileSuffix METADATA_FILENAME = ".json" := by rfl
  rw [h1, h2]
  have h3 : ("video_metadata" ++ "_" : String) = "video_metadata_" := by rfl
  rw [← h3]

theorem historyName_inj (t1 t2 : String)
    (h : "video_metadata_" ++ t1 ++ ".json" = "video_metadata_" ++ t2 ++ ".json") :
    t1 = t2 := by
  have hd := congrArg String.data h
  simp only [String.data_append] at hd
  rw [List.append_assoc, List.append_assoc] at hd
  exact String.ext (List.append_cancel_right (List.append_cancel_left hd))

/-! ## Preview path lemmas (C7, C10) -/

theorem getD_mem_cons {α : Type} (l : List α) (d : α) :
    ∀ n, l.getD n d ∈ d :: l := by
  induction l with
  | nil => intro n; simp [List.getD]
  | cons a rest ih =>
    intro n
    cases n with
    | zero => simp
    | succ n' =>
      rw [List.getD_cons_succ]
      rcases List.mem_cons.mp (ih n') with h | h
      · rw [h]; exact List.mem_cons_self _ _
      · exact List.mem_cons_of_mem _ (List.mem_cons_of_mem _ h)

theorem hexDigitChar_ne (n : Nat) : hexDigitChar n ≠ '/' ∧ hexDigitChar n ≠ '.' := by
  have h := getD_mem_cons "0123456789abcdef".data 'f' n
  have hall : ∀ c ∈ 'f' :: "0123456789abcdef".data, c ≠ '/' ∧ c ≠ '.' := by decide
  exact hall _ h

theorem mem_bytesToHexChars (l : List Nat) (c : Char)
    (h : c ∈ bytesToHexChars l) : ∃ n, c = hexDigitChar n := by
  induction l with
  | nil => simp [bytesToHexChars] at h
  | cons b bs ih =>
    simp only [bytesToHexChars, List.mem_cons] at h
    rcases h with rfl | rfl | h
    · exact ⟨_, rfl⟩
    · exact ⟨_, rfl⟩
    · exact ih h

theorem md5hex_data_chars (bs : List Nat) (c : Char)
    (h : c ∈ (md5hex bs).data) : ∃ n, c = hexDigitChar n :=
  mem_bytesToHexChars _ c h

theorem parsePath_plain_name (s : String) (hne : s.data ≠ [])
    (hsl : ∀ c ∈ s.data, c ≠ '/') (hdot : s ≠ ".") :
    parsePath s = ⟨false, [s]⟩ := by
  obtain ⟨c, cs, hd⟩ : ∃ c cs, s.data = c :: cs := by
    rcases hh : s.data with _ | ⟨c, cs⟩
    · exact absurd hh hne
    · exact ⟨c, cs, rfl⟩
  rw [parsePath_cons s c cs hd]
  have hc : c ≠ '/' := hsl c (by rw [hd]; exact List.mem_cons_self _ _)
  have hsplit : charSplit '/' (c :: cs) = [c :: cs] := by
    refine charSplit_of_not_mem '/' _ (fun hmem => ?_)
    rw [← hd] at hmem
    exact hsl '/' hmem rfl
  rw [hsplit]
  simp only [List.map, FsPath.mk.injEq]
  constructor
  · simp [hc]
  · have hmk : String.mk (c :: cs) = s := by rw [← hd]
    have hs1 : s ≠ "" := fun hh => hne ((string_eq_empty_iff s).mp hh)
    rw [hmk, List.filter_cons, if_pos (by simp [hs1, hdot])]
    rfl

theorem parsePath_preview_name (bs : List Nat) :
    parsePath (md5hex bs ++ PREVIEW_EXT) = ⟨false, [md5hex bs ++ PREVIEW_EXT]⟩ := by
  refine parsePath_plain_name _ ?_ ?_ ?_
  · rw [String.data_append]
    intro hh
    rcases List.append_eq_nil.mp hh with ⟨_, h2⟩
    exact absurd h2 (by decide)
  · intro c hc
    rw [String.data_append] at hc
    rcases List.mem_append.mp hc with h | h
    · obtain ⟨n, rfl⟩ := md5hex_data_chars bs c h
      exact (hexDigitChar_ne n).1
    · have hext : ∀ c ∈ PREVIEW_EXT.data, c ≠ '/' := by decide
      exact hext c h
  · intro hh
    have hd := congrArg String.data hh
    rw [String.data_append] at hd
    have hlen := congrArg List.length hd
    simp [List.length_append] at hlen
    have hext : PREVIEW_EXT.length = 4 := rfl
    omega

/-- The relative-path string hashed by `get_preview_path`: the
dataset-relative path when the video lies under the dataset root, its bare
file name otherwise. -/
def previewRelStr (cwd dataset_dir video_path : FsPath) : String :=
  match relative_to (resolveIn cwd video_path) (resolveIn cwd dataset_dir) with
  | some rel => pathToString rel
  | none => pathName video_path

theorem get_preview_path_shape (cwd dd v : FsPath) :
    get_preview_path cwd dd v =
      ⟨dd.absolute, dd.components ++
        [DATA_DIR_NAME, PREVIEWS_DIR,
         md5hex (utf8Encode (previewRelStr cwd dd v)) ++ PREVIEW_EXT]⟩ := by
  unfold get_preview_path previewRelStr
  have h1 : parsePath DATA_DIR_NAME = ⟨false, [DATA_DIR_NAME]⟩ := by rfl
  have h2 : parsePath PREVIEWS_DIR = ⟨false, [PREVIEWS_DIR]⟩ := by rfl
  rw [h1, h2, parsePath_preview_name]
  rw [pathJoin_rel_right _ _ rfl, pathJoin_rel_right _ _ rfl,
    pathJoin_rel_right _ _ rfl]
  simp

theorem get_preview_path_cwd_irrel (cwd1 cwd2 dd v : FsPath)
    (hdd : dd.absolute = true) (hv : v.absolute = true) :
    get_preview_path cwd1 dd v = get_preview_path cwd2 dd v := by
  unfold get_preview_path
  have h1 : ∀ cwd : FsPath, resolveIn cwd v = ⟨true, normDots v.components⟩ := by
    intro cwd
    simp [resolveIn, hv]
  have h2 : ∀ cwd : FsPath, resolveIn cwd dd = ⟨true, normDots dd.components⟩ := by
    intro cwd
    simp [resolveIn, hdd]
  rw [h1 cwd1, h1 cwd2, h2 cwd1, h2 cwd2]

/-! ## Entry invariant helpers (C9) -/

theorem mem_saveOutGo_values (dR : FsPath) :
    ∀ (m : Meta) (out : List (String × Entry)) (kv : String × Entry),
      kv ∈ saveOutGo dR m out →
      kv ∈ out ∨ ∃ kv' ∈ m, kv.2 = kv'.2 := by
  intro m
  induction m with
  | nil => intro out kv h; exact Or.inl h
  | cons kv0 rest ih =>
    intro out kv h
    obtain ⟨k, v⟩ := kv0
    rcases ih _ kv h with h1 | h1
    · rcases mem_dictInsert _ _ _ _ h1 with h2 | h2
      · exact Or.inl h2
      · exact Or.inr ⟨(k, v), by simp, by rw [h2]⟩
    · rcases h1 with ⟨kv', hkv', he⟩
      exact Or.inr ⟨kv', List.mem_cons_of_mem _ hkv', he⟩

theorem entryTagsOk_insert_notes (e : Entry) (v : Json)
    (h : entryTagsOk e = true) : entryTagsOk (dictInsert e "notes" v) = true := by
  unfold entryTagsOk at h ⊢
  rw [alistGet?_dictInsert, if_neg (by decide)]
  exact h

theorem entryTagsOk_insert_tags (e : Entry) (s : String) :
    entryTagsOk (dictInsert e "tags" (Json.str (normalize_tags s))) = true := by
  unfold entryTagsOk
  rw [alistGet?_dictInsert, if_pos rfl]
  exact decide_eq_true (normalize_tags_idem s)

theorem commit_inline_tags (m : Meta) (iid raw : String) :
    alistGet? (commit_inline m iid 3 raw) iid =
      some (dictInsert ((alistGet? m iid).getD freshEntry) "tags"
        (Json.str (normalize_tags (pyStrip raw)))) := by
  have hmd : alistGet? (dictSetdefault m iid freshEntry) iid =
      some ((alistGet? m iid).getD freshEntry) := by
    rw [alistGet?_dictSetdefault, if_pos rfl]
  simp only [commit_inline, hmd]
  rw [if_pos trivial, alistGet?_dictInsert, if_pos rfl]

theorem commit_inline_preserves (m : Meta) (iid raw : String) (col : Nat)
    (h : ∀ kv ∈ m, entryTagsOk kv.2 = true) :
    ∀ kv ∈ commit_inline m iid col raw, entryTagsOk kv.2 = true := by
  have hfresh : entryTagsOk freshEntry = true := by decide
  have hmd : ∀ kv' ∈ dictSetdefault m iid freshEntry, entryTagsOk kv'.2 = true := by
    intro kv' hkv'
    rcases mem_dictSetdefault _ _ _ _ hkv' with h1 | h1
    · exact h kv' h1
    · rw [h1]
      exact hfresh
  have he0 : entryTagsOk ((alistGet? m iid).getD freshEntry) = true := by
    rcases hg : alistGet? m iid with _ | e
    · exact hfresh
    · exact h (iid, e) (alistGet?_mem _ _ _ hg)
  have hmd' : alistGet? (dictSetdefault m iid freshEntry) iid =
      some ((alistGet? m iid).getD freshEntry) := by
    rw [alistGet?_dictSetdefault, if_pos rfl]
  intro kv hkv
  simp only [commit_inline, hmd'] at hkv
  by_cases hcol : col = 3
  · rw [if_pos hcol] at hkv
    rcases mem_dictInsert _ _ _ _ hkv with h1 | h1
    · exact hmd _ h1
    · rw [h1]
      exact entryTagsOk_insert_tags _ _
  · rw [if_neg hcol] at hkv
    rcases mem_dictInsert _ _ _ _ hkv with h1 | h1
    · exact hmd _ h1
    · rw [h1]
      exact entryTagsOk_insert_notes _ _ he0

/-! ## Claim theorems -/

/-- C1: for every dataset directory (an absolute resolved path) and every
mapping whose keys are distinct resolved absolute path strings and whose
values are entries with string fields `tags` and `notes`, `save_metadata`
followed by `load_metadata` restores the mapping exactly — including keys
outside the dataset root, which travel verbatim through the relative/
absolute translation at the store boundary. -/
theorem C1_save_load_roundtrip (cwd dd : FsPath) (m : Meta) (now : PyDateTime)
    (hdd : dd.absolute = true) (hw : wfComps dd)
    (hkeys : ∀ kv ∈ m, resolvedKeyStr kv.1)
    (hvals : ∀ kv ∈ m, ∃ t n,
      kv.2 = [("tags", Json.str t), ("notes", Json.str n)])
    (hnodup : (m.map Prod.fst).Nodup) :
    load_metadata cwd dd
      (.ok (save_metadata cwd dd m now).sidecarContent) = .ok m :=
  save_load_core cwd dd m now hdd hw hkeys hvals hnodup

/-- C1 witness: a concrete two-entry mapping, one key under the dataset
root `/data` and one outside it, survives the save/load round trip. -/
theorem C1_save_load_roundtrip_witness :
    load_metadata ⟨true, []⟩ ⟨true, ["data"]⟩
      (.ok (save_metadata ⟨true, []⟩ ⟨true, ["data"]⟩
        [("/data/a.mp4", [("tags", Json.str "t"), ("notes", Json.str "")]),
         ("/other/b.mp4", [("tags", Json.str "u"), ("notes", Json.str "n")])]
        ⟨2024, 1, 2, 3, 4, 5⟩).sidecarContent) =
      .ok [("/data/a.mp4", [("tags", Json.str "t"), ("notes", Json.str "")]),
        ("/other/b.mp4", [("tags", Json.str "u"), ("notes", Json.str "n")])] := by
  refine C1_save_load_roundtrip ⟨true, []⟩ ⟨true, ["data"]⟩ _ ⟨2024, 1, 2, 3, 4, 5⟩
    rfl (by decide) (by decide) ?_ (by decide)
  intro kv hkv
  simp only [List.mem_cons, List.not_mem_nil, or_false] at hkv
  rcases hkv with rfl | rfl
  · exact ⟨"t", "", rfl⟩
  · exact ⟨"u", "n", rfl⟩

/-- C2: `merge_with_video_list` covers exactly the resolved paths of the
video list; a listed file missing from the stored mapping is bound to the
fresh empty entry; a listed file present in the stored mapping keeps its
stored `tags` and `notes`; stored keys not in the list are absent. -/
theorem C2_merge_covers_video_list (cwd : FsPath) (vps : List FsPath) (m : Meta) :
    (∀ k : String,
      (alistGet? (merge_with_video_list cwd vps m) k).isSome = true ↔
        k ∈ vps.map (fun p => pathToString (resolveIn cwd p))) ∧
    (∀ p ∈ vps, alistGet? m (pathToString (resolveIn cwd p)) = none →
      alistGet? (merge_with_video_list cwd vps m) (pathToString (resolveIn cwd p)) =
        some [("tags", Json.str ""), ("notes", Json.str "")]) ∧
    (∀ p ∈ vps, ∀ e, alistGet? m (pathToString (resolveIn cwd p)) = some e →
      alistGet? (merge_with_video_list cwd vps m) (pathToString (resolveIn cwd p)) =
        some (dictSetdefault (dictSetdefault e "tags" (Json.str ""))
          "notes" (Json.str "")) ∧
      (∀ t, alistGet? e "tags" = some t →
        alistGet? (dictSetdefault (dictSetdefault e "tags" (Json.str ""))
          "notes" (Json.str "")) "tags" = some t) ∧
      (∀ n, alistGet? e "notes" = some n →
        alistGet? (dictSetdefault (dictSetdefault e "tags" (Json.str ""))
          "notes" (Json.str "")) "notes" = some n)) := by
  refine ⟨?_, ?_, ?_⟩
  · intro k
    show (alistGet? (mergeGo cwd m vps []) k).isSome = true ↔ _
    rw [mergeGo_get]
    by_cases hk : k ∈ vps.map (fun p => pathToString (resolveIn cwd p))
    · simp [hk]
    · simp [hk, alistGet?]
  · intro p hp hnone
    show alistGet? (mergeGo cwd m vps []) _ = _
    rw [mergeGo_get,
      if_pos (List.mem_map.mpr ⟨p, hp, rfl⟩)]
    unfold mergeEntry
    rw [hnone]
    rfl
  · intro p hp e hsome
    refine ⟨?_, ?_, ?_⟩
    · show alistGet? (mergeGo cwd m vps []) _ = _
      rw [mergeGo_get, if_pos (List.mem_map.mpr ⟨p, hp, rfl⟩)]
      unfold mergeEntry
      rw [hsome]
      rfl
    · intro t ht
      rw [alistGet?_dictSetdefault, if_neg (by decide),
        alistGet?_dictSetdefault, if_pos rfl, ht]
      rfl
    · intro n hn
      rw [alistGet?_dictSetdefault, if_pos rfl,
        alistGet?_dictSetdefault, if_neg (by decide), hn]
      rfl

/-- C2 witness: the spec's own example — video list `[A, B]`, stored
mapping binding only `A` with tags `"x"` and no notes field — yields
`A ↦ (tags "x", notes "")` and `B ↦ (tags "", notes "")`. -/
theorem C2_merge_covers_video_list_witness :
    alistGet? (merge_with_video_list ⟨true, []⟩
        [⟨true, ["d", "A.mp4"]⟩, ⟨true, ["d", "B.mp4"]⟩]
        [("/d/A.mp4", [("tags", Json.str "x")])]) "/d/A.mp4" =
      some [("tags", Json.str "x"), ("notes", Json.str "")] ∧
    alistGet? (merge_with_video_list ⟨true, []⟩
        [⟨true, ["d", "A.mp4"]⟩, ⟨true, ["d", "B.mp4"]⟩]
        [("/d/A.mp4", [("tags", Json.str "x")])]) "/d/B.mp4" =
      some [("tags", Json.str ""), ("notes", Json.str "")] := by
  constructor
  · exact ((C2_merge_covers_video_list ⟨true, []⟩
      [⟨true, ["d", "A.mp4"]⟩, ⟨true, ["d", "B.mp4"]⟩]
      [("/d/A.mp4", [("tags", Json.str "x")])]).2.2
        ⟨true, ["d", "A.mp4"]⟩ (by simp) [("tags", Json.str "x")] rfl).1
  · exact (C2_merge_covers_video_list ⟨true, []⟩
      [⟨true, ["d", "A.mp4"]⟩, ⟨true, ["d", "B.mp4"]⟩]
      [("/d/A.mp4", [("tags", Json.str "x")])]).2.1
        ⟨true, ["d", "B.mp4"]⟩ (by simp) rfl

/-- C3: `normalize_tags` computes exactly the spec's description (split on
maximal separator runs, trim, drop empties, rejoin with `"; "`, stated as
agreement with the spec-modelled `normalizeTagsSpec` on every input); a
whitespace-only or empty input normalizes to `""`; and the spec's example
`normalize("a, b;c  d") = "a; b; c; d"` holds. -/
theorem C3_normalize_tags_correct :
    (∀ raw : String, normalize_tags raw = normalizeTagsSpec raw) ∧
    (∀ raw : String, pyStrip raw = "" → normalize_tags raw = "") ∧
    normalize_tags "a, b;c  d" = "a; b; c; d" :=
  ⟨normalize_tags_eq_spec, normalize_tags_of_strip_empty, by rfl⟩

/-- C3 witness: the whitespace-only clause at `"   "` together with the
spec's example, via the claim theorem. -/
theorem C3_normalize_tags_correct_witness :
    normalize_tags "   " = "" ∧ normalize_tags "a, b;c  d" = "a; b; c; d" :=
  ⟨C3_normalize_tags_correct.2.1 "   " rfl, C3_normalize_tags_correct.2.2⟩

/-- C4: tag normalization is idempotent on every input string. -/
theorem C4_normalize_tags_idem (s : String) :
    normalize_tags (normalize_tags s) = normalize_tags s :=
  normalize_tags_idem s

/-- C5 (code bug): the claim says `load_metadata` never raises and returns
the empty mapping for any absent, unreadable or corrupt sidecar — and the
spec states this intent plainly ("the store never blocks the UI on a
corrupt file").  The code falls short of it: the handler on line 47 catches
only `json.JSONDecodeError` and `OSError`, so a sidecar whose bytes are not
valid UTF-8 makes `json.load` raise `UnicodeDecodeError`, which propagates
out of `load_metadata` uncaught.  This theorem evaluates the model at the
failing input (the undecodable sidecar), and contrasts it with the caught
paths, which do return the empty mapping: a missing file, an `OSError`, an
invalid-JSON file and a non-object document; it also records that
non-mapping entry values are skipped silently (loading a concrete object
with a malformed entry equals loading it with that entry filtered out). -/
theorem C5_load_raises_on_undecodable :
    load_metadata ⟨true, []⟩ ⟨true, ["d"]⟩ .undecodable =
      .error PyError.unicodeDecodeError ∧
    load_metadata ⟨true, []⟩ ⟨true, ["d"]⟩ .absent = .ok [] ∧
    load_metadata ⟨true, []⟩ ⟨true, ["d"]⟩ .readError = .ok [] ∧
    load_metadata ⟨true, []⟩ ⟨true, ["d"]⟩ .parseError = .ok [] ∧
    load_metadata ⟨true, []⟩ ⟨true, ["d"]⟩ (.ok (Json.str "corrupt")) = .ok [] ∧
    load_metadata ⟨true, []⟩ ⟨true, ["d"]⟩
        (.ok (Json.obj [("a.mp4", Json.obj [("tags", Json.str "t")]),
          ("bad", Json.num 7)])) =
      load_metadata ⟨true, []⟩ ⟨true, ["d"]⟩
        (.ok (Json.obj ([("a.mp4", Json.obj [("tags", Json.str "t")]),
          ("bad", Json.num 7)].filter (fun kv => jsonIsObj kv.2)))) :=
  ⟨rfl, rfl, rfl, rfl, rfl,
   congrArg Except.ok
     (loadGo_filter_obj ⟨true, []⟩ (resolveIn ⟨true, []⟩ ⟨true, ["d"]⟩)
       [("a.mp4", Json.obj [("tags", Json.str "t")]), ("bad", Json.num 7)] [])⟩

/-- C6 (as amended): provided the two saves carry distinct formatted
timestamps, the two history file names differ; each history copy holds
exactly the sidecar content of its own save; the history name carries the
`YYYYmmdd_HHMMSS` timestamp suffix; and after the two saves the history
directory holds both snapshots with their respective contents. -/
theorem C6_history_snapshots (cwd dd : FsPath) (m1 m2 : Meta)
    (t1 t2 : PyDateTime) (h : strftimeTS t1 ≠ strftimeTS t2) :
    (save_metadata cwd dd m1 t1).historyName ≠
      (save_metadata cwd dd m2 t2).historyName ∧
    (save_metadata cwd dd m1 t1).historyContent =
      (save_metadata cwd dd m1 t1).sidecarContent ∧
    (save_metadata cwd dd m1 t1).historyName =
      "video_metadata_" ++ strftimeTS t1 ++ ".json" ∧
    applyHistory (applyHistory [] (save_metadata cwd dd m1 t1))
        (save_metadata cwd dd m2 t2) =
      [((save_metadata cwd dd m1 t1).historyName,
        (save_metadata cwd dd m1 t1).sidecarContent),
       ((save_metadata cwd dd m2 t2).historyName,
        (save_metadata cwd dd m2 t2).sidecarContent)] := by
  have hne : (save_metadata cwd dd m1 t1).historyName ≠
      (save_metadata cwd dd m2 t2).historyName := by
    rw [historyName_eq, historyName_eq]
    intro hh
    exact h (historyName_inj _ _ hh)
  refine ⟨hne, rfl, historyName_eq cwd dd m1 t1, ?_⟩
  show dictInsert (dictInsert [] _ _) _ _ = _
  rw [dictInsert_of_forall_ne _ _ _ (by
    intro kv hkv
    have : kv = ((save_metadata cwd dd m1 t1).historyName,
        (save_metadata cwd dd m1 t1).historyContent) := by
      simpa [dictInsert] using hkv
    rw [this]
    exact fun hh => hne hh)]
  rfl

/-- C6 counterexample: two saves with the same wall-clock second produce
the same history file name, so the second save overwrites the first's
snapshot — the history directory ends up with a single file holding only
the second save's content, refuting "two saves produce two distinct
history files, each with the content of the sidecar at its save time". -/
theorem C6_history_snapshots_counterexample :
    applyHistory
        (applyHistory [] (save_metadata ⟨true, []⟩ ⟨true, ["d"]⟩ []
          ⟨2024, 1, 1, 0, 0, 0⟩))
        (save_metadata ⟨true, []⟩ ⟨true, ["d"]⟩
          [("/d/a.mp4", [("tags", Json.str "x"), ("notes", Json.str "")])]
          ⟨2024, 1, 1, 0, 0, 0⟩) =
      [("video_metadata_20240101_000000.json",
        Json.obj [("a.mp4",
          Json.obj [("tags", Json.str "x"), ("notes", Json.str "")])])] ∧
    (save_metadata ⟨true, []⟩ ⟨true, ["d"]⟩ [] ⟨2024, 1, 1, 0, 0, 0⟩).sidecarContent =
      Json.obj [] := by
  exact ⟨rfl, rfl⟩

/-- C6 witness: at two concrete times one second apart the amended claim
applies: the two history names differ. -/
theorem C6_history_snapshots_witness :
    (save_metadata ⟨true, []⟩ ⟨true, ["d"]⟩ [] ⟨2024, 1, 1, 0, 0, 0⟩).historyName ≠
      (save_metadata ⟨true, []⟩ ⟨true, ["d"]⟩ [] ⟨2024, 1, 1, 0, 0, 1⟩).historyName :=
  (C6_history_snapshots ⟨true, []⟩ ⟨true, ["d"]⟩ [] []
    ⟨2024, 1, 1, 0, 0, 0⟩ ⟨2024, 1, 1, 0, 0, 1⟩ (by decide)).1

/-- C7: `get_preview_path` is a pure function of its arguments — in
particular it is independent of the ambient working directory once the
dataset directory and video path are absolute, so the same video maps to
the same preview path across runs — and for every video under the dataset
root it returns `<dataset>/.data/previews/<md5-hex>.jpg` where `<md5-hex>`
is the MD5 of the video's dataset-relative path string. -/
theorem C7_preview_path_deterministic :
    (∀ (cwd dd v rel : FsPath),
      relative_to (resolveIn cwd v) (resolveIn cwd dd) = some rel →
      get_preview_path cwd dd v =
        ⟨dd.absolute, dd.components ++
          [DATA_DIR_NAME, PREVIEWS_DIR,
           md5hex (utf8Encode (pathToString rel)) ++ PREVIEW_EXT]⟩) ∧
    (∀ cwd1 cwd2 dd v : FsPath, dd.absolute = true → v.absolute = true →
      get_preview_path cwd1 dd v = get_preview_path cwd2 dd v) := by
  constructor
  · intro cwd dd v rel hrel
    rw [get_preview_path_shape]
    have hstr : previewRelStr cwd dd v = pathToString rel := by
      unfold previewRelStr
      rw [hrel]
    rw [hstr]
  · exact get_preview_path_cwd_irrel

/-- C7 witness: for the dataset `/d` and the video `/d/sub/clip.mp4` the
preview path is `/d/.data/previews/<md5("sub/clip.mp4")>.jpg` (the digest
matches `hashlib.md5`), and the result is the same under two different
working directories. -/
theorem C7_preview_path_deterministic_witness :
    get_preview_path ⟨true, []⟩ ⟨true, ["d"]⟩ ⟨true, ["d", "sub", "clip.mp4"]⟩ =
      ⟨true, ["d", ".data", "previews",
        "d1ecc7d6349c4b5609cc07837cd10a56.jpg"]⟩ ∧
    get_preview_path ⟨true, ["somewhere"]⟩ ⟨true, ["d"]⟩
        ⟨true, ["d", "sub", "clip.mp4"]⟩ =
      get_preview_path ⟨true, ["elsewhere"]⟩ ⟨true, ["d"]⟩
        ⟨true, ["d", "sub", "clip.mp4"]⟩ := by
  constructor
  · have h := C7_preview_path_deterministic.1 ⟨true, []⟩ ⟨true, ["d"]⟩
      ⟨true, ["d", "sub", "clip.mp4"]⟩ ⟨false, ["sub", "clip.mp4"]⟩ (by rfl)
    rw [h]
    rfl
  · exact C7_preview_path_deterministic.2 ⟨true, ["somewhere"]⟩
      ⟨true, ["elsewhere"]⟩ ⟨true, ["d"]⟩ ⟨true, ["d", "sub", "clip.mp4"]⟩ rfl rfl

/-- C8: `_on_save` never changes the in-memory metadata mapping — on
success, on failure, and when no directory is selected — and an `OSError`
during `save_metadata` aborts the save (no outputs are produced) and is
surfaced as a user-visible error box with the `Failed to save:` message. -/
theorem C8_save_failure_handling (cwd : FsPath) (dd : Option FsPath)
    (m : Meta) (now : PyDateTime) (err : Option String) :
    (on_save cwd dd m now err).1 = m ∧
    (∀ e, err = some e → ∀ d, dd = some d →
      (on_save cwd dd m now err).2.1 = none ∧
      (on_save cwd dd m now err).2.2 =
        UiMsg.showError ("Failed to save: " ++ e)) := by
  constructor
  · rcases dd with _ | d
    · rfl
    · rcases err with _ | e <;> rfl
  · rintro e rfl d rfl
    exact ⟨rfl, rfl⟩

/-- C8 witness: a concrete failing save ("disk full") leaves the mapping
untouched, produces no outputs, and shows the error box. -/
theorem C8_save_failure_handling_witness :
    (on_save ⟨true, []⟩ (some ⟨true, ["d"]⟩)
      [("/d/a.mp4", [("tags", Json.str "t"), ("notes", Json.str "")])]
      ⟨2024, 1, 1, 0, 0, 0⟩ (some "disk full")).1 =
      [("/d/a.mp4", [("tags", Json.str "t"), ("notes", Json.str "")])] ∧
    (on_save ⟨true, []⟩ (some ⟨true, ["d"]⟩)
      [("/d/a.mp4", [("tags", Json.str "t"), ("notes", Json.str "")])]
      ⟨2024, 1, 1, 0, 0, 0⟩ (some "disk full")).2.1 = none ∧
    (on_save ⟨true, []⟩ (some ⟨true, ["d"]⟩)
      [("/d/a.mp4", [("tags", Json.str "t"), ("notes", Json.str "")])]
      ⟨2024, 1, 1, 0, 0, 0⟩ (some "disk full")).2.2 =
      UiMsg.showError ("Failed to save: " ++ "disk full") := by
  have h := C8_save_failure_handling ⟨true, []⟩ (some ⟨true, ["d"]⟩)
    [("/d/a.mp4", [("tags", Json.str "t"), ("notes", Json.str "")])]
    ⟨2024, 1, 1, 0, 0, 0⟩ (some "disk full")
  have h2 := h.2 "disk full" rfl ⟨true, ["d"]⟩ rfl
  exact ⟨h.1, h2.1, h2.2⟩

/-- C10: when the video path does not lie under the dataset root,
`get_preview_path` hashes only the video's final name component; hence any
two outside-root videos sharing a basename map to the same preview path. -/
theorem C10_preview_fallback_basename :
    (∀ cwd dd v : FsPath,
      relative_to (resolveIn cwd v) (resolveIn cwd dd) = none →
      get_preview_path cwd dd v =
        ⟨dd.absolute, dd.components ++
          [DATA_DIR_NAME, PREVIEWS_DIR,
           md5hex (utf8Encode (pathName v)) ++ PREVIEW_EXT]⟩) ∧
    (∀ cwd dd v1 v2 : FsPath,
      relative_to (resolveIn cwd v1) (resolveIn cwd dd) = none →
      relative_to (resolveIn cwd v2) (resolveIn cwd dd) = none →
      pathName v1 = pathName v2 →
      get_preview_path cwd dd v1 = get_preview_path cwd dd v2) := by
  have hshape : ∀ cwd dd v : FsPath,
      relative_to (resolveIn cwd v) (resolveIn cwd dd) = none →
      get_preview_path cwd dd v =
        ⟨dd.absolute, dd.components ++
          [DATA_DIR_NAME, PREVIEWS_DIR,
           md5hex (utf8Encode (pathName v)) ++ PREVIEW_EXT]⟩ := by
    intro cwd dd v hrel
    rw [get_preview_path_shape]
    have hstr : previewRelStr cwd dd v = pathName v := by
      unfold previewRelStr
      rw [hrel]
    rw [hstr]
  refine ⟨hshape, ?_⟩
  intro cwd dd v1 v2 h1 h2 hname
  rw [hshape cwd dd v1 h1, hshape cwd dd v2 h2, hname]

/-- C10 witness: `/x/a.mp4` and `/y/a.mp4` both lie outside the dataset
`/d` and share the basename `a.mp4`, so they map to exactly the same
preview path. -/
theorem C10_preview_fallback_basename_witness :
    get_preview_path ⟨true, []⟩ ⟨true, ["d"]⟩ ⟨true, ["x", "a.mp4"]⟩ =
      get_preview_path ⟨true, []⟩ ⟨true, ["d"]⟩ ⟨true, ["y", "a.mp4"]⟩ :=
  C10_preview_fallback_basename.2 ⟨true, []⟩ ⟨true, ["d"]⟩
    ⟨true, ["x", "a.mp4"]⟩ ⟨true, ["y", "a.mp4"]⟩ (by rfl) (by rfl) rfl

/-- C9 counterexample: `load_metadata` does not normalize stored tags.  A
well-formed sidecar whose tags string is `" a , b "` (spaces around a comma
separator) loads verbatim, so the entry held by the application right after
load violates the invariant: its tags string is not a `normalize_tags`
fixed point. -/
theorem C9_tags_invariant_counterexample :
    load_metadata ⟨true, []⟩ ⟨true, ["d"]⟩
        (.ok (Json.obj [("x", Json.obj
          [("tags", Json.str " a , b "), ("notes", Json.str "")])])) =
      .ok [("/d/x", [("tags", Json.str " a , b "), ("notes", Json.str "")])] ∧
    entryTagsOk [("tags", Json.str " a , b "), ("notes", Json.str "")] = false ∧
    normalize_tags " a , b " ≠ " a , b " :=
  ⟨rfl, by decide, by decide⟩

/-- C9 (as amended): every entry created or edited inside the application
satisfies the tags invariant (the tags string is a `normalize_tags` fixed
point, i.e. `;`-separated trimmed tokens): the edit dialog normalizes its
tags; an inline tags edit stores exactly the normalized stripped input,
which satisfies the invariant; any inline edit preserves the invariant of a
mapping that has it; `merge_with_video_list` preserves it (fresh entries
are empty, stored entries keep their fields); and `save_metadata` persists
entry values verbatim, so the invariant carries to the persisted form.
After `load_metadata` the invariant holds only if the file's stored tags
are themselves normalized — load performs no normalization. -/
theorem C9_tags_invariant_amended :
    (∀ tags notes : String, entryTagsOk (edit_dialog_ok tags notes) = true) ∧
    (∀ (m : Meta) (iid raw : String),
      alistGet? ((alistGet? (commit_inline m iid 3 raw) iid).getD []) "tags" =
        some (Json.str (normalize_tags (pyStrip raw))) ∧
      entryTagsOk ((alistGet? (commit_inline m iid 3 raw) iid).getD []) = true) ∧
    (∀ (m : Meta) (iid raw : String) (col : Nat),
      (∀ kv ∈ m, entryTagsOk kv.2 = true) →
      ∀ kv ∈ commit_inline m iid col raw, entryTagsOk kv.2 = true) ∧
    (∀ (cwd : FsPath) (vps : List FsPath) (m : Meta),
      (∀ kv ∈ m, entryTagsOk kv.2 = true) →
      ∀ kv ∈ merge_with_video_list cwd vps m, entryTagsOk kv.2 = true) ∧
    (∀ (cwd dd : FsPath) (m : Meta) (kv : String × Entry),
      kv ∈ save_out cwd dd m → ∃ kv' ∈ m, kv.2 = kv'.2) := by
  refine ⟨?_, ?_, commit_inline_preserves, ?_, ?_⟩
  · intro tags notes
    unfold entryTagsOk edit_dialog_ok
    show (match alistGet? [("tags", Json.str (normalize_tags tags)),
      ("notes", Json.str (pyStrip notes))] "tags" with
      | some (Json.str s) => decide (normalize_tags s = s)
      | some _ => true
      | none => true) = true
    have hl : alistGet? [("tags", Json.str (normalize_tags tags)),
        ("notes", Json.str (pyStrip notes))] "tags" =
        some (Json.str (normalize_tags tags)) := rfl
    rw [hl]
    exact decide_eq_true (normalize_tags_idem tags)
  · intro m iid raw
    rw [commit_inline_tags]
    exact ⟨by rw [Option.getD_some, alistGet?_dictInsert, if_pos rfl],
      by rw [Option.getD_some]; exact entryTagsOk_insert_tags _ _⟩
  · intro cwd vps m hok kv hkv
    rcases mem_mergeGo cwd m vps [] kv hkv with h | ⟨k, rfl⟩
    · simp at h
    · exact entryTagsOk_mergeEntry m k hok
  · intro cwd dd m kv hkv
    rcases mem_saveOutGo_values (resolveIn cwd dd) m [] kv hkv with h | h
    · simp at h
    · exact h

/-- C9 witness: committing the inline tags text `" a, b "` stores the
normalized `"a; b"`, and an invariant-satisfying stored entry survives
`merge_with_video_list` with its invariant intact. -/
theorem C9_tags_invariant_amended_witness :
    alistGet? ((alistGet? (commit_inline [] "k" 3 " a, b ") "k").getD []) "tags" =
      some (Json.str "a; b") ∧
    entryTagsOk [("tags", Json.str "x; y"), ("notes", Json.str "")] = true := by
  constructor
  · exact (C9_tags_invariant_amended.2.1 [] "k" " a, b ").1
  · have hm : merge_with_video_list ⟨true, []⟩ [⟨true, ["d", "v.mp4"]⟩]
        [("/d/v.mp4", [("tags", Json.str "x; y"), ("notes", Json.str "")])] =
        [("/d/v.mp4", [("tags", Json.str "x; y"), ("notes", Json.str "")])] := rfl
    exact C9_tags_invariant_amended.2.2.2.1 ⟨true, []⟩ [⟨true, ["d", "v.mp4"]⟩]
      [("/d/v.mp4", [("tags", Json.str "x; y"), ("notes", Json.str "")])]
      (by decide)
      ("/d/v.mp4", [("tags", Json.str "x; y"), ("notes", Json.str "")])
      (by rw [hm]; exact List.mem_cons_self _ _)
